import Mathlib

/-!
Shallow embedding of `betfairlightweight/streaming/cache.py` (streaming cache
of the betfair exchange client) and verification of its specification.

Python floats appearing in price ladders are modelled as rationals (`ℚ`): the
code never performs arithmetic on them, it only compares them for equality,
compares them to `0`, and sorts rows, so any linearly ordered field with a
distinguished zero is a faithful carrier.

A ladder row (`[price, size]`, `[position, price, size]`, ...) is a
`List ℚ`.  Python indexing `row[i]` is modelled by `List.getD i 0`; the
difference (Python raises `IndexError` on a too-short row, `getD` returns a
default) is invisible on well-formed rows, and theorems that need row arity
state it as a hypothesis.
-/

namespace BetfairCache

/-- Python's `<` on lists of numbers: lexicographic comparison, a strict
prefix being smaller. -/
def pyLt : List ℚ → List ℚ → Bool
  | _, [] => false
  | [], _ :: _ => true
  | a :: as, b :: bs => if a < b then true else if b < a then false else pyLt as bs

/-- Python's `<=` on lists of numbers (total order: `r <= s` iff `¬ s < r`). -/
def pyLe (r s : List ℚ) : Bool := ! pyLt s r

theorem pyLt_irrefl (r : List ℚ) : pyLt r r = false := by
  induction r with
  | nil => rfl
  | cons a as ih => simp [pyLt, ih]

theorem pyLt_asymm {r s : List ℚ} (h : pyLt r s = true) : pyLt s r = false := by
  induction r generalizing s with
  | nil =>
    cases s with
    | nil => simp [pyLt] at h
    | cons b bs => rfl
  | cons a as ih =>
    cases s with
    | nil => simp [pyLt] at h
    | cons b bs =>
      simp only [pyLt] at h ⊢
      rcases lt_trichotomy a b with hab | hab | hab
      · simp [hab, not_lt.mpr hab.le]
      · subst hab
        simp only [lt_irrefl, if_false] at h ⊢
        exact ih h
      · simp [hab, not_lt.mpr hab.le] at h

theorem pyLt_antisymm {r s : List ℚ} (h1 : pyLt r s = false)
    (h2 : pyLt s r = false) : r = s := by
  induction r generalizing s with
  | nil =>
    cases s with
    | nil => rfl
    | cons b bs => simp [pyLt] at h1
  | cons a as ih =>
    cases s with
    | nil => simp [pyLt] at h2
    | cons b bs =>
      simp only [pyLt] at h1 h2
      rcases lt_trichotomy a b with hab | hab | hab
      · simp [hab] at h1
      · subst hab
        simp only [lt_irrefl, if_false] at h1 h2
        rw [ih h1 h2]
      · simp [hab] at h2

theorem pyLt_trans {r s t : List ℚ} (h1 : pyLt r s = true)
    (h2 : pyLt s t = true) : pyLt r t = true := by
  induction r generalizing s t with
  | nil =>
    cases t with
    | nil =>
      cases s with
      | nil => exact h1
      | cons b bs => simp [pyLt] at h2
    | cons c cs => rfl
  | cons a as ih =>
    cases s with
    | nil => simp [pyLt] at h1
    | cons b bs =>
      cases t with
      | nil => simp [pyLt] at h2
      | cons c cs =>
        simp only [pyLt] at h1 h2 ⊢
        rcases lt_trichotomy a b with hab | hab | hab
        · rcases lt_trichotomy b c with hbc | hbc | hbc
          · simp [lt_trans hab hbc]
          · subst hbc; simp [hab]
          · simp [hbc, not_lt.mpr hbc.le] at h2
        · subst hab
          simp only [lt_irrefl, if_false] at h1
          rcases lt_trichotomy a c with hac | hac | hac
          · simp [hac]
          · subst hac
            simp only [lt_irrefl, if_false] at h2 ⊢
            exact ih h1 h2
          · simp [hac, not_lt.mpr hac.le] at h2
        · simp [hab, not_lt.mpr hab.le] at h1

theorem pyLe_total (r s : List ℚ) : pyLe r s = true ∨ pyLe s r = true := by
  by_cases h : pyLt s r = true
  · exact Or.inr (by simp [pyLe, pyLt_asymm h])
  · exact Or.inl (by simp [pyLe, Bool.not_eq_true] at h ⊢; exact h)

theorem pyLe_trans {r s t : List ℚ} (h1 : pyLe r s = true)
    (h2 : pyLe s t = true) : pyLe r t = true := by
  simp only [pyLe, Bool.not_eq_true'] at h1 h2 ⊢
  by_contra hc
  rw [Bool.not_eq_false] at hc
  by_cases hst : pyLt s t = true
  · rw [pyLt_trans hst hc] at h1
    exact Bool.noConfusion h1
  · rw [Bool.not_eq_true] at hst
    rw [pyLt_antisymm hst h2] at h1
    rw [hc] at h1
    exact Bool.noConfusion h1

/-- The identity field of a row: `trade[0]` / `book[0]` in the source. -/
def ident (r : List ℚ) : ℚ := r.getD 0 0

/-- One serialised ladder level: the dict `{"price": ..., "size": ...}`. -/
structure PriceSize where
  price : ℚ
  size : ℚ
deriving DecidableEq, Repr

/-- One entry of the serialisation comprehension in `Available.sort`:
`{"price": volume[deletion_select - 1], "size": volume[deletion_select]}`. -/
def render (deletion_select : ℕ) (volume : List ℚ) : PriceSize :=
  { price := volume.getD (deletion_select - 1) 0
    size := volume.getD deletion_select 0 }

/-- Python's `prices.sort(reverse=reverse)`.  CPython's sort is stable, but
the comparator is a total lexicographic order whose only ties are between
equal rows, so stability is unobservable and any correct sort for the
comparator produces the same list; we use Mathlib's insertion sort. -/
def sortRows (reverse : Bool) (l : List (List ℚ)) : List (List ℚ) :=
  if reverse then List.insertionSort (fun r s => pyLe s r = true) l
  else List.insertionSort (fun r s => pyLe r s = true) l

/-- Source `Available`: the price-ladder data structure of the source, holding the
raw rows (`prices`), the configured size-field position (`deletion_select`),
the sort direction (`reverse`) and the cached serialisation (`serialise`). -/
structure Available where
  prices : List (List ℚ)
  deletion_select : ℕ
  reverse : Bool
  serialise : List PriceSize
deriving DecidableEq, Repr

/-- Source `Available.sort(sort=...)`: optionally re-sort `prices`, then rebuild the
cached `serialise` list from the (possibly re-sorted) rows. -/
def Available.sort (a : Available) (sort : Bool) : Available :=
  let ps := if sort then sortRows a.reverse a.prices else a.prices
  { a with prices := ps, serialise := ps.map (render a.deletion_select) }

/-- Source `Available.__init__(prices, deletion_select, reverse)`: `prices or []`
(a `None` argument is the `none` case), then an unconditional sort. -/
def Available.init (prices : Option (List (List ℚ))) (deletion_select : ℕ)
    (reverse : Bool) : Available :=
  Available.sort
    { prices := prices.getD []
      deletion_select := deletion_select
      reverse := reverse
      serialise := [] } true

/-- Source `Available.clear()`: empty the rows and rebuild the serialisation. -/
def Available.clear (a : Available) : Available :=
  Available.sort { a with prices := [] } true

/-- The body of `for book in book_update` in `Available.update`: scan the
current rows for the first one whose identity field equals the incoming
row's; on a match delete it (incoming size field `== 0`) or replace it
in place, otherwise append — except that a zero-size row is dropped (the
documented upstream-anomaly workaround).  Returns the new rows and whether an
append happened (the `sort = True` flag). -/
def applyBook (deletion_select : ℕ) (book : List ℚ) :
    List (List ℚ) → List (List ℚ) × Bool
  | [] =>
    if book.getD deletion_select 0 ≠ 0 then ([book], true) else ([], false)
  | trade :: rest =>
    if ident trade = ident book then
      if book.getD deletion_select 0 = 0 then (rest, false)
      else (book :: rest, false)
    else
      let r := applyBook deletion_select book rest
      (trade :: r.1, r.2)

/-- The whole `for book in book_update` loop of `Available.update`: fold the
per-row merge over the batch, accumulating the `sort` flag (`acc.2`), which
starts `False` and is set on any append. -/
def updateFold (deletion_select : ℕ) (init : List (List ℚ) × Bool)
    (book_update : List (List ℚ)) : List (List ℚ) × Bool :=
  book_update.foldl
    (fun acc book =>
      let s := applyBook deletion_select book acc.1
      (s.1, acc.2 || s.2))
    init

/-- Source `Available.update(book_update)`: run the merge loop, then `self.sort(sort)`. -/
def Available.update (a : Available) (book_update : List (List ℚ)) : Available :=
  let r := updateFold a.deletion_select (a.prices, false) book_update
  Available.sort { a with prices := r.1 } r.2

/-- The well-formedness every reachable `Available` has: the cached
`serialise` list is the rendering of the current rows (re-established by
`Available.sort` at the end of every constructor / mutator call). -/
def Available.wf (a : Available) : Prop :=
  a.serialise = a.prices.map (render a.deletion_select)

instance (a : Available) : Decidable a.wf := by
  unfold Available.wf; infer_instance

theorem sort_wf (a : Available) (b : Bool) : (a.sort b).wf := rfl

theorem init_wf (prices : Option (List (List ℚ))) (ds : ℕ) (rev : Bool) :
    (Available.init prices ds rev).wf := rfl

theorem clear_wf (a : Available) : a.clear.wf := rfl

theorem update_wf (a : Available) (bs : List (List ℚ)) : (a.update bs).wf := rfl

/-- No identity match and a zero incoming size field: the row is dropped,
the rows are untouched and no append is recorded. -/
theorem applyBook_not_mem_zero {ds : ℕ} {book : List ℚ} {l : List (List ℚ)}
    (h : ∀ r ∈ l, ident r ≠ ident book) (hz : book.getD ds 0 = 0) :
    applyBook ds book l = (l, false) := by
  induction l with
  | nil =>
    unfold applyBook
    rw [if_neg (by simp only [ne_eq, not_not]; exact hz)]
  | cons trade rest ih =>
    have hne : ident trade ≠ ident book := h trade (List.mem_cons_self _ _)
    have ih' := ih (fun r hr => h r (List.mem_cons_of_mem _ hr))
    simp [applyBook, if_neg hne, ih']

/-- No identity match and a nonzero incoming size field: the row is appended
at the end and the append is recorded. -/
theorem applyBook_not_mem_nonzero {ds : ℕ} {book : List ℚ} {l : List (List ℚ)}
    (h : ∀ r ∈ l, ident r ≠ ident book) (hz : book.getD ds 0 ≠ 0) :
    applyBook ds book l = (l ++ [book], true) := by
  induction l with
  | nil =>
    unfold applyBook
    rw [if_pos hz]
    simp
  | cons trade rest ih =>
    have hne : ident trade ≠ ident book := h trade (List.mem_cons_self _ _)
    have ih' := ih (fun r hr => h r (List.mem_cons_of_mem _ hr))
    simp [applyBook, if_neg hne, ih']

/-- First identity match at row `r` and a zero incoming size field: exactly
that row is deleted, everything else is kept in order, no append recorded. -/
theorem applyBook_mem_zero {ds : ℕ} {book r : List ℚ} {l₁ l₂ : List (List ℚ)}
    (h1 : ∀ x ∈ l₁, ident x ≠ ident book) (h2 : ident r = ident book)
    (hz : book.getD ds 0 = 0) :
    applyBook ds book (l₁ ++ r :: l₂) = (l₁ ++ l₂, false) := by
  induction l₁ with
  | nil =>
    simp only [List.nil_append]
    unfold applyBook
    rw [if_pos h2, if_pos hz]
  | cons trade rest ih =>
    have hne : ident trade ≠ ident book := h1 trade (List.mem_cons_self _ _)
    have ih' := ih (fun x hx => h1 x (List.mem_cons_of_mem _ hx))
    simp only [List.cons_append, applyBook, if_neg hne, List.append_eq] at ih' ⊢
    simp [ih']

/-- First identity match at row `r` and a nonzero incoming size field: exactly
that row is replaced in place by the incoming row, no append recorded. -/
theorem applyBook_mem_nonzero {ds : ℕ} {book r : List ℚ} {l₁ l₂ : List (List ℚ)}
    (h1 : ∀ x ∈ l₁, ident x ≠ ident book) (h2 : ident r = ident book)
    (hz : book.getD ds 0 ≠ 0) :
    applyBook ds book (l₁ ++ r :: l₂) = (l₁ ++ book :: l₂, false) := by
  induction l₁ with
  | nil =>
    simp only [List.nil_append]
    unfold applyBook
    rw [if_pos h2, if_neg hz]
  | cons trade rest ih =>
    have hne : ident trade ≠ ident book := h1 trade (List.mem_cons_self _ _)
    have ih' := ih (fun x hx => h1 x (List.mem_cons_of_mem _ hx))
    simp only [List.cons_append, applyBook, if_neg hne, List.append_eq] at ih' ⊢
    simp [ih']

/-- A single-row batch unfolded. -/
theorem update_single (a : Available) (book : List ℚ) :
    a.update [book]
      = Available.sort
          { a with prices := (applyBook a.deletion_select book a.prices).1 }
          (applyBook a.deletion_select book a.prices).2 := by
  simp [Available.update, updateFold]

/-- C1: a zero-size update row whose identity matches no existing row is
dropped silently.  (i) Mid-batch, the per-row merge leaves the rows exactly
as they were and records no append; (ii) for a whole single-row batch the
ladder's rows and cached serialisation are exactly as before; (iii) applying
`[[2.5, 0]]` to an empty ladder leaves the serialised list `[]`. -/
theorem claim_C1 :
    (∀ (ds : ℕ) (book : List ℚ) (l : List (List ℚ)),
        (∀ r ∈ l, ident r ≠ ident book) → book.getD ds 0 = 0 →
        applyBook ds book l = (l, false))
    ∧ (∀ (a : Available) (book : List ℚ), a.wf →
        (∀ r ∈ a.prices, ident r ≠ ident book) →
        book.getD a.deletion_select 0 = 0 →
        (a.update [book]).prices = a.prices
          ∧ (a.update [book]).serialise = a.serialise)
    ∧ ((Available.init none 1 false).update [[mkRat 5 2, 0]]).serialise = [] := by
  refine ⟨fun ds book l h hz => applyBook_not_mem_zero h hz, fun a book hwf h hz => ?_, by decide⟩
  rw [update_single, applyBook_not_mem_zero h hz]
  unfold Available.wf at hwf
  simp [Available.sort, hwf]

/-- Witness for C1 at a concrete ladder `[[1, 2]]` and update row `[4, 0]`. -/
theorem claim_C1_witness :
    ((Available.init (some [[1, 2]]) 1 false).update [[4, 0]]).prices
        = (Available.init (some [[1, 2]]) 1 false).prices
      ∧ ((Available.init (some [[1, 2]]) 1 false).update [[4, 0]]).serialise
        = (Available.init (some [[1, 2]]) 1 false).serialise :=
  claim_C1.2.1 (Available.init (some [[1, 2]]) 1 false) [4, 0]
    (by decide) (by decide) (by decide)

/-- C2: a zero-size update row whose identity `p` is present removes exactly
the (first) row carrying `p` and leaves every other row unchanged, in order;
in particular `[[2.5, 10]]` updated with `[[2.5, 0]]` serialises to `[]`. -/
theorem claim_C2 :
    (∀ (a : Available) (l₁ l₂ : List (List ℚ)) (r book : List ℚ),
        a.prices = l₁ ++ r :: l₂ →
        (∀ x ∈ l₁, ident x ≠ ident book) → ident r = ident book →
        book.getD a.deletion_select 0 = 0 →
        (a.update [book]).prices = l₁ ++ l₂
          ∧ (a.update [book]).serialise
              = (l₁ ++ l₂).map (render a.deletion_select))
    ∧ ((Available.init (some [[mkRat 5 2, 10]]) 1 false).update
        [[mkRat 5 2, 0]]).serialise = [] := by
  refine ⟨fun a l₁ l₂ r book hp h1 h2 hz => ?_, by decide⟩
  rw [update_single, hp, applyBook_mem_zero h1 h2 hz]
  simp [Available.sort]

/-- Witness for C2 at the ladder `[[1, 2], [3, 4]]` and update row `[3, 0]`. -/
theorem claim_C2_witness :
    ((Available.init (some [[1, 2], [3, 4]]) 1 false).update [[3, 0]]).prices
        = [[1, 2]]
      ∧ ((Available.init (some [[1, 2], [3, 4]]) 1 false).update
          [[3, 0]]).serialise = [{ price := 1, size := 2 }] := by
  have h := claim_C2.1 (Available.init (some [[1, 2], [3, 4]]) 1 false)
    [[1, 2]] [] [3, 4] [3, 0] (by decide) (by decide) (by decide) (by decide)
  exact ⟨h.1, by rw [h.2]; decide⟩

/-- C3: a nonzero-size update row whose identity `p` is present replaces only
the (first) row carrying `p`, in place, leaving the row count unchanged; and
a batch whose merge loop records no append (pure replaces/deletes) is not
re-sorted: the resulting rows are exactly the fold of the per-row merges. -/
theorem claim_C3 :
    (∀ (a : Available) (l₁ l₂ : List (List ℚ)) (r book : List ℚ),
        a.prices = l₁ ++ r :: l₂ →
        (∀ x ∈ l₁, ident x ≠ ident book) → ident r = ident book →
        book.getD a.deletion_select 0 ≠ 0 →
        (a.update [book]).prices = l₁ ++ book :: l₂
          ∧ (a.update [book]).prices.length = a.prices.length)
    ∧ (∀ (a : Available) (bs : List (List ℚ)),
        (updateFold a.deletion_select (a.prices, false) bs).2 = false →
        (a.update bs).prices
          = (updateFold a.deletion_select (a.prices, false) bs).1) := by
  constructor
  · intro a l₁ l₂ r book hp h1 h2 hz
    rw [update_single, hp, applyBook_mem_nonzero h1 h2 hz]
    constructor
    · simp [Available.sort]
    · simp [Available.sort]
  · intro a bs hf
    simp only [Available.update, hf]
    simp [Available.sort]

/-- Witness for C3 at the ladder `[[1, 2], [3, 4]]` and update row `[3, 9]`. -/
theorem claim_C3_witness :
    ((Available.init (some [[1, 2], [3, 4]]) 1 false).update [[3, 9]]).prices
        = [[1, 2], [3, 9]]
      ∧ ((Available.init (some [[1, 2], [3, 4]]) 1 false).update
          [[3, 9]]).prices.length
        = (Available.init (some [[1, 2], [3, 4]]) 1 false).prices.length := by
  have h := claim_C3.1 (Available.init (some [[1, 2], [3, 4]]) 1 false)
    [[1, 2]] [] [3, 4] [3, 9] (by decide) (by decide) (by decide) (by decide)
  exact ⟨h.1, h.2⟩

/-- Rows ordered by the identity field per the configured direction
(descending when `reverse` is set, ascending otherwise). -/
def identRel (rev : Bool) (r s : List ℚ) : Prop :=
  if rev then ident s ≤ ident r else ident r ≤ ident s

instance (rev : Bool) : DecidableRel (identRel rev) := by
  unfold identRel; infer_instance

/-- The pairwise sort invariant of a ladder's rows. -/
def sortedByIdent (rev : Bool) (l : List (List ℚ)) : Prop :=
  l.Pairwise (identRel rev)

/-- No two rows share an identity value. -/
def uniqueIdents (l : List (List ℚ)) : Prop := (l.map ident).Nodup

theorem identRel_congr_left {rev : Bool} {r r' s : List ℚ}
    (h : ident r = ident r') (hx : identRel rev r s) : identRel rev r' s := by
  unfold identRel at hx ⊢
  cases rev <;> simpa [← h] using hx

theorem identRel_congr_right {rev : Bool} {r s s' : List ℚ}
    (h : ident s = ident s') (hx : identRel rev r s) : identRel rev r s' := by
  unfold identRel at hx ⊢
  cases rev <;> simpa [← h] using hx

instance : IsTotal (List ℚ) (fun r s => pyLe r s = true) :=
  ⟨pyLe_total⟩

instance : IsTrans (List ℚ) (fun r s => pyLe r s = true) :=
  ⟨fun _ _ _ => pyLe_trans⟩

instance : IsTotal (List ℚ) (fun r s => pyLe s r = true) :=
  ⟨fun a b => pyLe_total b a⟩

instance : IsTrans (List ℚ) (fun r s => pyLe s r = true) :=
  ⟨fun _ _ _ h1 h2 => pyLe_trans h2 h1⟩

/-- Lexicographic order on nonempty rows is compatible with the order of
their identity (first) fields. -/
theorem pyLe_ident {r s : List ℚ} (hr : r ≠ []) (h : pyLe r s = true) :
    ident r ≤ ident s := by
  cases r with
  | nil => exact absurd rfl hr
  | cons a as =>
    cases s with
    | nil => simp [pyLe, pyLt] at h
    | cons b bs =>
      simp only [pyLe, pyLt, Bool.not_eq_true'] at h
      by_contra hab
      rw [not_le] at hab
      have hba : b < a := by simpa [ident] using hab
      simp [hba, not_le.mpr hba] at h

theorem sortRows_perm (rev : Bool) (l : List (List ℚ)) :
    (sortRows rev l).Perm l := by
  unfold sortRows
  cases rev <;> simp [List.perm_insertionSort]

/-- Sorting with the configured direction yields rows ordered by identity,
provided no row is empty. -/
theorem sortRows_sortedByIdent (rev : Bool) (l : List (List ℚ))
    (h : ∀ r ∈ l, r ≠ []) : sortedByIdent rev (sortRows rev l) := by
  unfold sortedByIdent sortRows
  cases rev
  · simp only [if_neg Bool.false_ne_true]
    have hs := List.sorted_insertionSort (fun r s => pyLe r s = true) l
    refine List.Pairwise.imp_of_mem ?_ hs
    intro r s hrm _ hrs
    have hr : r ≠ [] :=
      h r ((List.perm_insertionSort (fun r s => pyLe r s = true) l).mem_iff.mp hrm)
    exact (by unfold identRel; simp [pyLe_ident hr hrs] :
      identRel false r s)
  · simp only [if_pos rfl]
    have hs := List.sorted_insertionSort (fun r s => pyLe s r = true) l
    refine List.Pairwise.imp_of_mem ?_ hs
    intro r s _ hsm hrs
    have hsne : s ≠ [] :=
      h s ((List.perm_insertionSort (fun r s => pyLe s r = true) l).mem_iff.mp hsm)
    exact (by unfold identRel; simp [pyLe_ident hsne hrs] :
      identRel true r s)

/-- Every row after the per-row merge is either an old row or the incoming
row. -/
theorem applyBook_mem {ds : ℕ} {book : List ℚ} {l : List (List ℚ)} :
    ∀ s ∈ (applyBook ds book l).1, s ∈ l ∨ s = book := by
  induction l with
  | nil =>
    intro s hs
    unfold applyBook at hs
    by_cases hz : book.getD ds 0 ≠ 0
    · rw [if_pos hz] at hs
      simp at hs
      exact Or.inr hs
    · rw [if_neg hz] at hs
      simp at hs
  | cons trade rest ih =>
    intro s hs
    unfold applyBook at hs
    by_cases hid : ident trade = ident book
    · rw [if_pos hid] at hs
      by_cases hz : book.getD ds 0 = 0
      · rw [if_pos hz] at hs
        exact Or.inl (List.mem_cons_of_mem _ hs)
      · rw [if_neg hz] at hs
        rcases List.mem_cons.mp hs with h | h
        · exact Or.inr h
        · exact Or.inl (List.mem_cons_of_mem _ h)
    · rw [if_neg hid] at hs
      rcases List.mem_cons.mp hs with h | h
      · exact Or.inl (h ▸ List.mem_cons_self _ _)
      · rcases ih s h with h' | h'
        · exact Or.inl (List.mem_cons_of_mem _ h')
        · exact Or.inr h'

/-- The per-row merge never duplicates an identity. -/
theorem applyBook_uniqueIdents {ds : ℕ} {book : List ℚ} {l : List (List ℚ)}
    (h : uniqueIdents l) : uniqueIdents (applyBook ds book l).1 := by
  induction l with
  | nil =>
    unfold applyBook
    by_cases hz : book.getD ds 0 ≠ 0
    · rw [if_pos hz]; simp [uniqueIdents]
    · rw [if_neg hz]; simp [uniqueIdents]
  | cons trade rest ih =>
    unfold uniqueIdents at h
    simp only [List.map_cons, List.nodup_cons] at h
    unfold applyBook
    by_cases hid : ident trade = ident book
    · rw [if_pos hid]
      by_cases hz : book.getD ds 0 = 0
      · rw [if_pos hz]; exact h.2
      · rw [if_neg hz]
        unfold uniqueIdents
        simp only [List.map_cons, List.nodup_cons]
        exact ⟨hid ▸ h.1, h.2⟩
    · rw [if_neg hid]
      have hrec := ih h.2
      unfold uniqueIdents at hrec ⊢
      simp only [List.map_cons, List.nodup_cons]
      refine ⟨?_, hrec⟩
      intro hmem
      rcases List.mem_map.mp hmem with ⟨s, hs, hq⟩
      rcases applyBook_mem s hs with h' | h'
      · exact h.1 (hq ▸ List.mem_map_of_mem ident h')
      · exact hid (hq ▸ h' ▸ rfl)

/-- When the per-row merge records no append, every resulting row is an old
row, or the incoming row standing where a row of equal identity stood. -/
theorem applyBook_mem_flag_false {ds : ℕ} {book : List ℚ} {l : List (List ℚ)}
    (hf : (applyBook ds book l).2 = false) :
    ∀ s ∈ (applyBook ds book l).1,
      s ∈ l ∨ (s = book ∧ ∃ r ∈ l, ident r = ident book) := by
  induction l with
  | nil =>
    intro s hs
    unfold applyBook at hs
    by_cases hz : book.getD ds 0 ≠ 0
    · unfold applyBook at hf
      rw [if_pos hz] at hf
      exact Bool.noConfusion hf
    · rw [if_neg hz] at hs
      simp at hs
  | cons trade rest ih =>
    intro s hs
    unfold applyBook at hs hf
    by_cases hid : ident trade = ident book
    · rw [if_pos hid] at hs
      by_cases hz : book.getD ds 0 = 0
      · rw [if_pos hz] at hs
        exact Or.inl (List.mem_cons_of_mem _ hs)
      · rw [if_neg hz] at hs
        rcases List.mem_cons.mp hs with h | h
        · exact Or.inr ⟨h, trade, List.mem_cons_self _ _, hid⟩
        · exact Or.inl (List.mem_cons_of_mem _ h)
    · rw [if_neg hid] at hs hf
      rcases List.mem_cons.mp hs with h | h
      · exact Or.inl (h ▸ List.mem_cons_self _ _)
      · rcases ih hf s h with h' | ⟨hb, r, hr, hrid⟩
        · exact Or.inl (List.mem_cons_of_mem _ h')
        · exact Or.inr ⟨hb, r, List.mem_cons_of_mem _ hr, hrid⟩

/-- A no-append merge step (pure replace/delete/drop) preserves the pairwise
sort invariant. -/
theorem applyBook_pairwise_of_flag_false {rev : Bool} {ds : ℕ} {book : List ℚ}
    {l : List (List ℚ)} (hs : l.Pairwise (identRel rev))
    (hf : (applyBook ds book l).2 = false) :
    (applyBook ds book l).1.Pairwise (identRel rev) := by
  induction l with
  | nil =>
    unfold applyBook at hf ⊢
    by_cases hz : book.getD ds 0 ≠ 0
    · rw [if_pos hz] at hf
      exact Bool.noConfusion hf
    · rw [if_neg hz]
      exact List.Pairwise.nil
  | cons trade rest ih =>
    rcases List.pairwise_cons.mp hs with ⟨hhead, htail⟩
    unfold applyBook at hf ⊢
    by_cases hid : ident trade = ident book
    · rw [if_pos hid]
      by_cases hz : book.getD ds 0 = 0
      · rw [if_pos hz]
        exact htail
      · rw [if_neg hz]
        refine List.pairwise_cons.mpr ⟨?_, htail⟩
        intro s hsm
        exact identRel_congr_left hid (hhead s hsm)
    · rw [if_neg hid] at hf ⊢
      refine List.pairwise_cons.mpr ⟨?_, ih htail hf⟩
      intro s hsm
      rcases applyBook_mem_flag_false hf s hsm with h | ⟨hb, r, hr, hrid⟩
      · exact hhead s h
      · exact hb ▸ identRel_congr_right hrid (hhead r hr)

/-- A merge loop started with the flag already set keeps it set. -/
theorem updateFold_flag_mono (ds : ℕ) (l : List (List ℚ))
    (bs : List (List ℚ)) : (updateFold ds (l, true) bs).2 = true := by
  induction bs generalizing l with
  | nil => rfl
  | cons bk bs ih => simpa [updateFold] using ih (applyBook ds bk l).1

theorem updateFold_cons (ds : ℕ) (l : List (List ℚ)) (b : Bool)
    (bk : List ℚ) (bs : List (List ℚ)) :
    updateFold ds (l, b) (bk :: bs)
      = updateFold ds ((applyBook ds bk l).1, b || (applyBook ds bk l).2) bs :=
  rfl

/-- Every row after a whole merge loop is an old row or one of the batch. -/
theorem updateFold_mem {ds : ℕ} {l bs : List (List ℚ)} {b : Bool} :
    ∀ s ∈ (updateFold ds (l, b) bs).1, s ∈ l ∨ s ∈ bs := by
  induction bs generalizing l b with
  | nil => intro s hs; exact Or.inl hs
  | cons bk bs ih =>
    intro s hs
    rw [updateFold_cons] at hs
    rcases ih s hs with h | h
    · rcases applyBook_mem s h with h' | h'
      · exact Or.inl h'
      · exact Or.inr (h' ▸ List.mem_cons_self _ _)
    · exact Or.inr (List.mem_cons_of_mem _ h)

/-- A whole merge loop never duplicates an identity. -/
theorem updateFold_uniqueIdents {ds : ℕ} {l bs : List (List ℚ)} {b : Bool}
    (h : uniqueIdents l) : uniqueIdents (updateFold ds (l, b) bs).1 := by
  induction bs generalizing l b with
  | nil => exact h
  | cons bk bs ih =>
    rw [updateFold_cons]
    exact ih (applyBook_uniqueIdents h)

/-- A merge loop that ends with the flag clear preserves the pairwise sort
invariant (no step appended, so no step disturbed the order). -/
theorem updateFold_pairwise_of_flag_false {rev : Bool} {ds : ℕ}
    {l bs : List (List ℚ)} (hs : l.Pairwise (identRel rev))
    (hf : (updateFold ds (l, false) bs).2 = false) :
    (updateFold ds (l, false) bs).1.Pairwise (identRel rev) := by
  induction bs generalizing l with
  | nil => exact hs
  | cons bk bs ih =>
    rw [updateFold_cons] at hf ⊢
    by_cases hstep : (applyBook ds bk l).2 = true
    · rw [hstep, Bool.false_or] at hf
      rw [updateFold_flag_mono] at hf
      exact Bool.noConfusion hf
    · rw [Bool.not_eq_true] at hstep
      rw [hstep, Bool.false_or] at hf ⊢
      exact ih (applyBook_pairwise_of_flag_false hs hstep) hf

instance (rev : Bool) (l : List (List ℚ)) : Decidable (sortedByIdent rev l) := by
  unfold sortedByIdent; infer_instance

instance (l : List (List ℚ)) : Decidable (uniqueIdents l) := by
  unfold uniqueIdents; infer_instance

theorem sortRows_nil (rev : Bool) : sortRows rev [] = [] := by
  unfold sortRows; cases rev <;> rfl

theorem update_prices (a : Available) (bs : List (List ℚ)) :
    (a.update bs).prices
      = (if (updateFold a.deletion_select (a.prices, false) bs).2
          then sortRows a.reverse
            (updateFold a.deletion_select (a.prices, false) bs).1
          else (updateFold a.deletion_select (a.prices, false) bs).1) := rfl

theorem update_deletion_select (a : Available) (bs : List (List ℚ)) :
    (a.update bs).deletion_select = a.deletion_select := rfl

/-- C5: on any ladder satisfying the documented invariant (rows ordered per
the configured direction, identities pairwise distinct) whose rows — and
incoming batch rows — are well-formed (nonempty), any completed update batch
re-establishes the invariant, and the cached serialisation is exactly the
rendering of the (ordered) rows; `clear` trivially re-establishes it too. -/
theorem claim_C5 :
    (∀ (a : Available) (bs : List (List ℚ)),
        sortedByIdent a.reverse a.prices → uniqueIdents a.prices →
        (∀ r ∈ a.prices, r ≠ []) → (∀ b ∈ bs, b ≠ []) →
        sortedByIdent a.reverse (a.update bs).prices
          ∧ uniqueIdents (a.update bs).prices
          ∧ (a.update bs).serialise
              = (a.update bs).prices.map (render a.deletion_select))
    ∧ (∀ a : Available,
        sortedByIdent a.reverse a.clear.prices
          ∧ uniqueIdents a.clear.prices
          ∧ a.clear.serialise = a.clear.prices.map (render a.deletion_select)) := by
  constructor
  · intro a bs hsort huniq hrows hbs
    refine ⟨?_, ?_, update_wf a bs⟩
    · rw [update_prices]
      by_cases hflag : (updateFold a.deletion_select (a.prices, false) bs).2 = true
      · rw [if_pos hflag]
        refine sortRows_sortedByIdent a.reverse _ ?_
        intro r hr
        rcases updateFold_mem r hr with h | h
        · exact hrows r h
        · exact hbs r h
      · rw [Bool.not_eq_true] at hflag
        rw [hflag, if_neg Bool.false_ne_true]
        exact updateFold_pairwise_of_flag_false hsort hflag
    · rw [update_prices]
      by_cases hflag : (updateFold a.deletion_select (a.prices, false) bs).2 = true
      · rw [if_pos hflag]
        unfold uniqueIdents
        exact ((sortRows_perm a.reverse _).map ident).nodup_iff.mpr
          (updateFold_uniqueIdents huniq)
      · rw [Bool.not_eq_true] at hflag
        rw [hflag, if_neg Bool.false_ne_true]
        exact updateFold_uniqueIdents huniq
  · intro a
    have hp : a.clear.prices = [] := by
      show (sortRows a.reverse []) = []
      exact sortRows_nil a.reverse
    refine ⟨?_, ?_, clear_wf a⟩
    · rw [hp]; exact List.Pairwise.nil
    · rw [hp]; simp [uniqueIdents]

/-- Witness for C5: a ladder `[[1, 2], [3, 4]]` updated with an appending
batch `[[5, 6]]` keeps the invariant. -/
theorem claim_C5_witness :
    sortedByIdent (Available.init (some [[1, 2], [3, 4]]) 1 false).reverse
        ((Available.init (some [[1, 2], [3, 4]]) 1 false).update
          [[5, 6]]).prices
      ∧ uniqueIdents ((Available.init (some [[1, 2], [3, 4]]) 1 false).update
          [[5, 6]]).prices
      ∧ ((Available.init (some [[1, 2], [3, 4]]) 1 false).update
          [[5, 6]]).serialise
        = ((Available.init (some [[1, 2], [3, 4]]) 1 false).update
            [[5, 6]]).prices.map
            (render (Available.init (some [[1, 2], [3, 4]]) 1 false).deletion_select) :=
  claim_C5.1 (Available.init (some [[1, 2], [3, 4]]) 1 false) [[5, 6]]
    (by decide) (by decide) (by decide) (by decide)

/-- C10: construction with `None` yields an empty ladder with an empty cached
serialisation; construction with any (possibly unsorted) row list sorts the
rows per the configured direction at once and caches their rendering, so the
sort invariant never depends on the caller pre-sorting. -/
theorem claim_C10 :
    (∀ (ds : ℕ) (rev : Bool),
        (Available.init none ds rev).prices = []
          ∧ (Available.init none ds rev).serialise = [])
    ∧ (∀ (l : List (List ℚ)) (ds : ℕ) (rev : Bool),
        (Available.init (some l) ds rev).prices = sortRows rev l
          ∧ (Available.init (some l) ds rev).serialise
              = (sortRows rev l).map (render ds)
          ∧ ((∀ r ∈ l, r ≠ []) →
              sortedByIdent rev (Available.init (some l) ds rev).prices)) := by
  constructor
  · intro ds rev
    constructor
    · show sortRows rev [] = []
      exact sortRows_nil rev
    · show (sortRows rev []).map (render ds) = []
      rw [sortRows_nil rev]
      rfl
  · intro l ds rev
    refine ⟨rfl, rfl, ?_⟩
    intro h
    show sortedByIdent rev (sortRows rev l)
    exact sortRows_sortedByIdent rev l h

/-- Witness for C10 at the unsorted initial list `[[3, 4], [1, 2]]`. -/
theorem claim_C10_witness :
    (Available.init (some [[3, 4], [1, 2]]) 1 false).prices
        = sortRows false [[3, 4], [1, 2]]
      ∧ sortedByIdent false
          (Available.init (some [[3, 4], [1, 2]]) 1 false).prices := by
  have h := claim_C10.2 [[3, 4], [1, 2]] 1 false
  exact ⟨h.1, h.2.2 (by decide)⟩

/-- The last row of a batch carrying identity `p`, if any (later batch rows
overwrite the effect of earlier ones with the same identity). -/
def lastWith (bs : List (List ℚ)) (p : ℚ) : Option (List ℚ) :=
  match bs with
  | [] => none
  | bk :: rest =>
    match lastWith rest p with
    | some x => some x
    | none => if ident bk = p then some bk else none

theorem lastWith_eq_none {bs : List (List ℚ)} {p : ℚ} :
    lastWith bs p = none ↔ ∀ bk ∈ bs, ident bk ≠ p := by
  induction bs with
  | nil => simp [lastWith]
  | cons bk rest ih =>
    constructor
    · intro h x hx
      unfold lastWith at h
      rcases hlw : lastWith rest p with _ | y
      · rw [hlw] at h
        rcases List.mem_cons.mp hx with h' | h'
        · subst h'
          intro hid
          rw [if_pos hid] at h
          exact Option.noConfusion h
        · exact (ih.mp hlw) x h'
      · rw [hlw] at h
        exact Option.noConfusion h
    · intro h
      unfold lastWith
      rw [ih.mpr (fun x hx => h x (List.mem_cons_of_mem _ hx))]
      rw [if_neg (h bk (List.mem_cons_self _ _))]

/-- Replace every row of matching identity by the incoming row. -/
def replaceRow (book r : List ℚ) : List ℚ :=
  if ident r = ident book then book else r

theorem ident_replaceRow (book r : List ℚ) :
    ident (replaceRow book r) = ident r := by
  unfold replaceRow
  by_cases h : ident r = ident book
  · rw [if_pos h, h]
  · rw [if_neg h]

theorem idents_map_replaceRow (book : List ℚ) (l : List (List ℚ)) :
    (l.map (replaceRow book)).map ident = l.map ident := by
  rw [List.map_map]
  exact List.map_congr_left (fun r _ => ident_replaceRow book r)

/-- With pairwise-distinct identities, a matched nonzero-size merge step is
exactly "replace the rows of that identity", and records no append. -/
theorem applyBook_replace_nodup {ds : ℕ} {book : List ℚ} {l : List (List ℚ)}
    (hu : uniqueIdents l) (hmem : ident book ∈ l.map ident)
    (hz : book.getD ds 0 ≠ 0) :
    applyBook ds book l = (l.map (replaceRow book), false) := by
  induction l with
  | nil => simp at hmem
  | cons trade rest ih =>
    unfold uniqueIdents at hu
    simp only [List.map_cons, List.nodup_cons] at hu
    unfold applyBook
    by_cases hid : ident trade = ident book
    · rw [if_pos hid, if_neg hz]
      have hrest : rest.map (replaceRow book) = rest := by
        conv_rhs => rw [← List.map_id rest]
        refine List.map_congr_left ?_
        intro r hr
        show replaceRow book r = r
        unfold replaceRow
        rw [if_neg]
        intro hc
        exact hu.1 (hid ▸ hc ▸ List.mem_map_of_mem ident hr)
      simp only [List.map_cons, replaceRow, if_pos hid, hrest]
    · rw [if_neg hid]
      have hmem' : ident book ∈ rest.map ident := by
        rcases List.mem_cons.mp hmem with h | h
        · exact absurd h.symm hid
        · exact h
      rw [ih hu.2 hmem']
      simp only [List.map_cons, replaceRow, if_neg hid]

/-- A nonzero-size merge step keeps every row of a different identity. -/
theorem applyBook_keep {ds : ℕ} {book r₀ : List ℚ} {l : List (List ℚ)}
    (hmem : r₀ ∈ l) (hne : ident r₀ ≠ ident book) :
    r₀ ∈ (applyBook ds book l).1 := by
  induction l with
  | nil => simp at hmem
  | cons trade rest ih =>
    unfold applyBook
    by_cases hid : ident trade = ident book
    · rw [if_pos hid]
      by_cases hz : book.getD ds 0 = 0
      · rw [if_pos hz]
        rcases List.mem_cons.mp hmem with h | h
        · exact absurd (h ▸ hid) hne
        · exact h
      · rw [if_neg hz]
        rcases List.mem_cons.mp hmem with h | h
        · exact absurd (h ▸ hid) hne
        · exact List.mem_cons_of_mem _ h
    · rw [if_neg hid]
      rcases List.mem_cons.mp hmem with h | h
      · exact h ▸ List.mem_cons_self _ _
      · exact List.mem_cons_of_mem _ (ih h)

/-- A nonzero-size merge step puts the incoming row in the resulting rows. -/
theorem applyBook_self_mem {ds : ℕ} {book : List ℚ} {l : List (List ℚ)}
    (hz : book.getD ds 0 ≠ 0) :
    book ∈ (applyBook ds book l).1 := by
  induction l with
  | nil =>
    unfold applyBook
    rw [if_pos hz]
    exact List.mem_singleton_self book
  | cons trade rest ih =>
    unfold applyBook
    by_cases hid : ident trade = ident book
    · rw [if_pos hid, if_neg hz]
      exact List.mem_cons_self _ _
    · rw [if_neg hid]
      exact List.mem_cons_of_mem _ ih

/-- A nonzero-size merge step never loses an identity. -/
theorem applyBook_idents_mono {ds : ℕ} {book : List ℚ} {l : List (List ℚ)}
    (hz : book.getD ds 0 ≠ 0) {q : ℚ} (hq : q ∈ l.map ident) :
    q ∈ ((applyBook ds book l).1).map ident := by
  rcases List.mem_map.mp hq with ⟨r, hr, hrq⟩
  by_cases hne : ident r = ident book
  · exact hrq ▸ hne ▸ List.mem_map_of_mem ident (applyBook_self_mem hz)
  · exact hrq ▸ List.mem_map_of_mem ident (applyBook_keep hr hne)

theorem eq_of_uniqueIdents {l : List (List ℚ)} (hu : uniqueIdents l)
    {r s : List ℚ} (hr : r ∈ l) (hs : s ∈ l) (h : ident r = ident s) :
    r = s :=
  List.inj_on_of_nodup_map hu hr hs h

/-- A merge loop over a batch none of whose rows matches `r₀`'s identity
keeps `r₀`. -/
theorem updateFold_keep {ds : ℕ} {bs l : List (List ℚ)} {r₀ : List ℚ}
    {b : Bool} (hmem : r₀ ∈ l) (hno : ∀ bk ∈ bs, ident bk ≠ ident r₀) :
    r₀ ∈ (updateFold ds (l, b) bs).1 := by
  induction bs generalizing l b with
  | nil => exact hmem
  | cons bk bs ih =>
    rw [updateFold_cons]
    exact ih
      (applyBook_keep hmem (Ne.symm (hno bk (List.mem_cons_self _ _))))
      (fun x hx => hno x (List.mem_cons_of_mem _ hx))

/-- A merge loop of nonzero-size rows never loses an identity. -/
theorem updateFold_idents_mono {ds : ℕ} {bs l : List (List ℚ)} {b : Bool}
    (hnz : ∀ bk ∈ bs, bk.getD ds 0 ≠ 0) {q : ℚ} (hq : q ∈ l.map ident) :
    q ∈ ((updateFold ds (l, b) bs).1).map ident := by
  induction bs generalizing l b with
  | nil => exact hq
  | cons bk bs ih =>
    rw [updateFold_cons]
    exact ih (fun x hx => hnz x (List.mem_cons_of_mem _ hx))
      (applyBook_idents_mono (hnz bk (List.mem_cons_self _ _)) hq)

/-- After a merge loop of nonzero-size rows over a ladder with
pairwise-distinct identities: every batch identity is present, and every
resulting row whose identity occurs in the batch equals the last batch row
of that identity. -/
theorem updateFold_post {ds : ℕ} {bs : List (List ℚ)} :
    ∀ {l : List (List ℚ)} {b : Bool}, uniqueIdents l →
    (∀ bk ∈ bs, bk.getD ds 0 ≠ 0) →
    (∀ bk ∈ bs, ident bk ∈ ((updateFold ds (l, b) bs).1).map ident)
      ∧ (∀ r ∈ (updateFold ds (l, b) bs).1, ∀ x,
          lastWith bs (ident r) = some x → x = r) := by
  induction bs with
  | nil =>
    intro l b _ _
    refine ⟨by simp, ?_⟩
    intro r _ x hx
    exact Option.noConfusion (hx ▸ rfl : (none : Option (List ℚ)) = some x)
  | cons bk bs ih =>
    intro l b hu hnz
    have hz : bk.getD ds 0 ≠ 0 := hnz bk (List.mem_cons_self _ _)
    have hnz' : ∀ x ∈ bs, x.getD ds 0 ≠ 0 :=
      fun x hx => hnz x (List.mem_cons_of_mem _ hx)
    have hum : uniqueIdents (applyBook ds bk l).1 := applyBook_uniqueIdents hu
    rcases ih hum hnz' with ⟨ih1, ih2⟩
    rw [updateFold_cons]
    constructor
    · intro bk' hbk'
      rcases List.mem_cons.mp hbk' with h | h
      · subst h
        exact updateFold_idents_mono hnz'
          (List.mem_map_of_mem ident (applyBook_self_mem hz))
      · exact ih1 bk' h
    · intro r hr x hx
      rcases hlw : lastWith bs (ident r) with _ | y
      · unfold lastWith at hx
        rw [hlw] at hx
        by_cases hcid : ident bk = ident r
        · rw [if_pos hcid] at hx
          have hxbk : x = bk := (Option.some.injEq _ _ ▸ hx).symm
          have hno : ∀ bk' ∈ bs, ident bk' ≠ ident bk := by
            intro bk' hbk'
            rw [hcid]
            exact lastWith_eq_none.mp hlw bk' hbk'
          have hbkmem : bk ∈ (updateFold ds ((applyBook ds bk l).1,
              b || (applyBook ds bk l).2) bs).1 :=
            updateFold_keep (applyBook_self_mem hz)
              (fun x hx' => hno x hx')
          have huf : uniqueIdents (updateFold ds ((applyBook ds bk l).1,
              b || (applyBook ds bk l).2) bs).1 :=
            updateFold_uniqueIdents hum
          rw [hxbk]
          exact (eq_of_uniqueIdents huf hr hbkmem (hcid.symm)).symm
        · rw [if_neg hcid] at hx
          exact Option.noConfusion hx
      · unfold lastWith at hx
        rw [hlw] at hx
        have hxy : y = x := Option.some.inj hx
        exact hxy ▸ ih2 r hr y hlw

/-- Characterisation of a merge loop whose batch rows all have nonzero sizes
and identities already present in a ladder with pairwise-distinct
identities: each row is replaced by the last batch row of its identity (if
any), nothing is appended. -/
theorem updateFold_fix {ds : ℕ} {bs : List (List ℚ)} :
    ∀ {l : List (List ℚ)}, uniqueIdents l →
    (∀ bk ∈ bs, ident bk ∈ l.map ident) →
    (∀ bk ∈ bs, bk.getD ds 0 ≠ 0) →
    updateFold ds (l, false) bs
      = (l.map (fun r => (lastWith bs (ident r)).getD r), false) := by
  induction bs with
  | nil =>
    intro l _ _ _
    show (l, false) = _
    rw [Prod.mk.injEq]
    refine ⟨?_, rfl⟩
    conv_lhs => rw [← List.map_id l]
    exact List.map_congr_left (fun r _ => rfl)
  | cons bk bs ih =>
    intro l hu hall hnz
    have hz : bk.getD ds 0 ≠ 0 := hnz bk (List.mem_cons_self _ _)
    have hstep := applyBook_replace_nodup hu (hall bk (List.mem_cons_self _ _)) hz
    rw [updateFold_cons, hstep]
    show updateFold ds (l.map (replaceRow bk), false) bs = _
    have hu' : uniqueIdents (l.map (replaceRow bk)) := by
      unfold uniqueIdents
      rw [idents_map_replaceRow]
      exact hu
    have hall' : ∀ x ∈ bs, ident x ∈ (l.map (replaceRow bk)).map ident := by
      intro x hx
      rw [idents_map_replaceRow]
      exact hall x (List.mem_cons_of_mem _ hx)
    have hnz' : ∀ x ∈ bs, x.getD ds 0 ≠ 0 :=
      fun x hx => hnz x (List.mem_cons_of_mem _ hx)
    rw [ih hu' hall' hnz']
    rw [Prod.mk.injEq]
    refine ⟨?_, rfl⟩
    rw [List.map_map]
    refine List.map_congr_left ?_
    intro r _
    show (lastWith bs (ident (replaceRow bk r))).getD (replaceRow bk r)
      = (lastWith (bk :: bs) (ident r)).getD r
    rw [ident_replaceRow]
    rcases hlw : lastWith bs (ident r) with _ | y
    · show _ = (lastWith (bk :: bs) (ident r)).getD r
      unfold lastWith
      rw [hlw]
      by_cases hcid : ident bk = ident r
      · rw [if_pos hcid]
        show replaceRow bk r = bk
        unfold replaceRow
        rw [if_pos hcid.symm]
      · rw [if_neg hcid]
        show replaceRow bk r = r
        unfold replaceRow
        rw [if_neg (fun h => hcid h.symm)]
    · show (Option.some y).getD _ = (lastWith (bk :: bs) (ident r)).getD r
      unfold lastWith
      rw [hlw]
      rfl

/-- C4: on a ladder satisfying the documented identity-uniqueness invariant,
applying an identical batch of nonzero-size rows twice yields exactly the
same ladder — rows and cached serialisation — as applying it once. -/
theorem claim_C4 (a : Available) (bs : List (List ℚ))
    (hu : uniqueIdents a.prices)
    (hnz : ∀ bk ∈ bs, bk.getD a.deletion_select 0 ≠ 0) :
    (a.update bs).update bs = a.update bs := by
  have hperm : (a.update bs).prices.Perm
      (updateFold a.deletion_select (a.prices, false) bs).1 := by
    rw [update_prices]
    by_cases h : (updateFold a.deletion_select (a.prices, false) bs).2 = true
    · rw [if_pos h]
      exact sortRows_perm a.reverse _
    · rw [Bool.not_eq_true] at h
      rw [h, if_neg Bool.false_ne_true]
  have hu₁ : uniqueIdents (updateFold a.deletion_select (a.prices, false) bs).1 :=
    updateFold_uniqueIdents hu
  rcases updateFold_post hu hnz with ⟨hall₁, hlast₁⟩
  have huA : uniqueIdents (a.update bs).prices :=
    ((hperm.map ident).nodup_iff).mpr hu₁
  have hallA : ∀ bk ∈ bs, ident bk ∈ ((a.update bs).prices).map ident :=
    fun bk hbk => ((hperm.map ident).mem_iff).mpr (hall₁ bk hbk)
  have hlastA : ∀ r ∈ (a.update bs).prices, ∀ x,
      lastWith bs (ident r) = some x → x = r :=
    fun r hr x hx => hlast₁ r (hperm.subset hr) x hx
  have hmap : ((a.update bs).prices).map
      (fun r => (lastWith bs (ident r)).getD r) = (a.update bs).prices := by
    conv_rhs => rw [← List.map_id (a.update bs).prices]
    refine List.map_congr_left ?_
    intro r hr
    show (lastWith bs (ident r)).getD r = r
    rcases hlw : lastWith bs (ident r) with _ | y
    · rfl
    · exact hlastA r hr y hlw
  have hfold : updateFold (a.update bs).deletion_select
      ((a.update bs).prices, false) bs = ((a.update bs).prices, false) := by
    rw [update_deletion_select, updateFold_fix huA hallA hnz]
    rw [Prod.mk.injEq]
    exact ⟨hmap, rfl⟩
  show Available.sort _ _ = a.update bs
  rw [hfold]
  show Available.sort (a.update bs) false = a.update bs
  unfold Available.sort
  simp only [if_neg Bool.false_ne_true]
  rw [← update_wf a bs]

/-- Witness for C4: the ladder `[[1, 2]]` and the batch `[[1, 5], [3, 6]]`
(one replace, one append). -/
theorem claim_C4_witness :
    ((Available.init (some [[1, 2]]) 1 false).update
        [[1, 5], [3, 6]]).update [[1, 5], [3, 6]]
      = (Available.init (some [[1, 2]]) 1 false).update [[1, 5], [3, 6]] :=
  claim_C4 (Available.init (some [[1, 2]]) 1 false) [[1, 5], [3, 6]]
    (by decide) (by decide)

/-- The slice of a per-runner definition dict the code reads (`status`,
`bsp`, `adjustmentFactor`, `removalDate` for the serialisation caches, `id`
and `hc` for the composite key).  `id` of the empty dict is never read by the
code; it is fixed to `0` here. -/
structure RunnerDefinition where
  id : ℤ
  hc : Option ℚ
  status : Option String
  bsp : Option ℚ
  adjustmentFactor : Option ℚ
  removalDate : Option String
deriving DecidableEq, Repr

/-- The empty dict `{}` used when a runner is built without a definition. -/
def emptyRunnerDefinition : RunnerDefinition :=
  { id := 0, hc := none, status := none, bsp := none,
    adjustmentFactor := none, removalDate := none }

/-- The dict built by `RunnerBook.serialise`. -/
structure RunnerSerial where
  status : Option String
  tradedVolume : List PriceSize
  availableToBack : List PriceSize
  availableToLay : List PriceSize
  nearPrice : Option ℚ
  farPrice : Option ℚ
  backStakeTaken : List PriceSize
  layLiabilityTaken : List PriceSize
  actualSP : Option ℚ
  adjustmentFactor : Option ℚ
  removalDate : Option String
  lastPriceTraded : Option ℚ
  handicap : ℚ
  totalMatched : Option ℚ
  selectionId : ℤ
deriving DecidableEq, Repr

/-- Source `RunnerBook`: one selection's market-side state.  The four
`definition_*` fields model the `_definition_*` caches; `serialised` models
the `serialised` dict cache, `none` standing for its initial `{}`. -/
structure RunnerBook where
  selection_id : ℤ
  last_price_traded : Option ℚ
  total_matched : Option ℚ
  traded : Available
  available_to_back : Available
  best_available_to_back : Available
  best_display_available_to_back : Available
  available_to_lay : Available
  best_available_to_lay : Available
  best_display_available_to_lay : Available
  starting_price_back : Available
  starting_price_lay : Available
  starting_price_near : Option ℚ
  starting_price_far : Option ℚ
  handicap : ℚ
  definition : RunnerDefinition
  definition_status : Option String
  definition_bsp : Option ℚ
  definition_adjustment_factor : Option ℚ
  definition_removal_date : Option String
  serialised : Option RunnerSerial
deriving DecidableEq, Repr

/-- Source `RunnerBook.update_definition`: store the definition and refresh the four
serialisation caches. -/
def RunnerBook.update_definition (r : RunnerBook) (d : RunnerDefinition) :
    RunnerBook :=
  { r with
    definition := d
    definition_status := d.status
    definition_bsp := d.bsp
    definition_adjustment_factor := d.adjustmentFactor
    definition_removal_date := d.removalDate }

/-- Source `RunnerBook.__init__`, parameters in source order; `None` defaults are
`none`, the handicap default `0` is made explicit by callers. -/
def RunnerBook.init (id : ℤ) (ltp tv : Option ℚ)
    (trd atb batb bdatb atl batl bdatl : Option (List (List ℚ)))
    (spn spf : Option ℚ) (spb spl : Option (List (List ℚ)))
    (hc : ℚ) (definition : Option RunnerDefinition) : RunnerBook :=
  let d := definition.getD emptyRunnerDefinition
  { selection_id := id
    last_price_traded := ltp
    total_matched := tv
    traded := Available.init trd 1 false
    available_to_back := Available.init atb 1 true
    best_available_to_back := Available.init batb 2 false
    best_display_available_to_back := Available.init bdatb 2 false
    available_to_lay := Available.init atl 1 false
    best_available_to_lay := Available.init batl 2 false
    best_display_available_to_lay := Available.init bdatl 2 false
    starting_price_back := Available.init spb 1 false
    starting_price_lay := Available.init spl 1 false
    starting_price_near := spn
    starting_price_far := spf
    handicap := hc
    definition := d
    definition_status := d.status
    definition_bsp := d.bsp
    definition_adjustment_factor := d.adjustmentFactor
    definition_removal_date := d.removalDate
    serialised := none }

/-- Source `RunnerBook.update_traded`: a falsy (empty) update clears the traded
ladder, otherwise it is forwarded to the ladder's merge. -/
def RunnerBook.update_traded (r : RunnerBook)
    (traded_update : List (List ℚ)) : RunnerBook :=
  if traded_update = [] then { r with traded := r.traded.clear }
  else { r with traded := r.traded.update traded_update }

/-- Source `RunnerBook.serialise_available_to_back`: full-depth ladder if non-empty,
else best-display, else best, else `[]`. -/
def RunnerBook.serialise_available_to_back (r : RunnerBook) : List PriceSize :=
  if r.available_to_back.prices ≠ [] then r.available_to_back.serialise
  else if r.best_display_available_to_back.prices ≠ [] then
    r.best_display_available_to_back.serialise
  else if r.best_available_to_back.prices ≠ [] then
    r.best_available_to_back.serialise
  else []

/-- Source `RunnerBook.serialise_available_to_lay`: same precedence on the lay
side. -/
def RunnerBook.serialise_available_to_lay (r : RunnerBook) : List PriceSize :=
  if r.available_to_lay.prices ≠ [] then r.available_to_lay.serialise
  else if r.best_display_available_to_lay.prices ≠ [] then
    r.best_display_available_to_lay.serialise
  else if r.best_available_to_lay.prices ≠ [] then
    r.best_available_to_lay.serialise
  else []

/-- The dict built by the body of `RunnerBook.serialise`. -/
def RunnerBook.serialiseFields (r : RunnerBook) : RunnerSerial :=
  { status := r.definition_status
    tradedVolume := r.traded.serialise
    availableToBack := r.serialise_available_to_back
    availableToLay := r.serialise_available_to_lay
    nearPrice := r.starting_price_near
    farPrice := r.starting_price_far
    backStakeTaken := r.starting_price_back.serialise
    layLiabilityTaken := r.starting_price_lay.serialise
    actualSP := r.definition_bsp
    adjustmentFactor := r.definition_adjustment_factor
    removalDate := r.definition_removal_date
    lastPriceTraded := r.last_price_traded
    handicap := r.handicap
    totalMatched := r.total_matched
    selectionId := r.selection_id }

/-- Source `RunnerBook.serialise()`: refresh the cached output dict. -/
def RunnerBook.serialise (r : RunnerBook) : RunnerBook :=
  { r with serialised := some r.serialiseFields }

/-- C6: back/lay availability resolution applies the strict fallback
precedence full-depth, then best-display, then best, then empty, on both
sides. -/
theorem claim_C6 (r : RunnerBook) :
    ((r.available_to_back.prices ≠ [] →
        r.serialise_available_to_back = r.available_to_back.serialise)
      ∧ (r.available_to_back.prices = [] →
          r.best_display_available_to_back.prices ≠ [] →
          r.serialise_available_to_back
            = r.best_display_available_to_back.serialise)
      ∧ (r.available_to_back.prices = [] →
          r.best_display_available_to_back.prices = [] →
          r.best_available_to_back.prices ≠ [] →
          r.serialise_available_to_back = r.best_available_to_back.serialise)
      ∧ (r.available_to_back.prices = [] →
          r.best_display_available_to_back.prices = [] →
          r.best_available_to_back.prices = [] →
          r.serialise_available_to_back = []))
    ∧ ((r.available_to_lay.prices ≠ [] →
        r.serialise_available_to_lay = r.available_to_lay.serialise)
      ∧ (r.available_to_lay.prices = [] →
          r.best_display_available_to_lay.prices ≠ [] →
          r.serialise_available_to_lay
            = r.best_display_available_to_lay.serialise)
      ∧ (r.available_to_lay.prices = [] →
          r.best_display_available_to_lay.prices = [] →
          r.best_available_to_lay.prices ≠ [] →
          r.serialise_available_to_lay = r.best_available_to_lay.serialise)
      ∧ (r.available_to_lay.prices = [] →
          r.best_display_available_to_lay.prices = [] →
          r.best_available_to_lay.prices = [] →
          r.serialise_available_to_lay = [])) := by
  unfold RunnerBook.serialise_available_to_back
    RunnerBook.serialise_available_to_lay
  refine ⟨⟨?_, ?_, ?_, ?_⟩, ?_, ?_, ?_, ?_⟩
  · intro h1; rw [if_pos h1]
  · intro h1 h2
    rw [if_neg (by simp [h1]), if_pos h2]
  · intro h1 h2 h3
    rw [if_neg (by simp [h1]), if_neg (by simp [h2]), if_pos h3]
  · intro h1 h2 h3
    rw [if_neg (by simp [h1]), if_neg (by simp [h2]), if_neg (by simp [h3])]
  · intro h1; rw [if_pos h1]
  · intro h1 h2
    rw [if_neg (by simp [h1]), if_pos h2]
  · intro h1 h2 h3
    rw [if_neg (by simp [h1]), if_neg (by simp [h2]), if_pos h3]
  · intro h1 h2 h3
    rw [if_neg (by simp [h1]), if_neg (by simp [h2]), if_neg (by simp [h3])]

/-- Witness for C6: a runner whose only populated back-side ladder is the
best ladder resolves to it. -/
theorem claim_C6_witness :
    (RunnerBook.init 7 none none none none (some [[0, 2, 3]]) none none none
        none none none none none 0 none).serialise_available_to_back
      = (RunnerBook.init 7 none none none none (some [[0, 2, 3]]) none none
          none none none none none none 0 none).best_available_to_back.serialise :=
  (claim_C6 (RunnerBook.init 7 none none none none (some [[0, 2, 3]]) none
    none none none none none none none 0 none)).1.2.2.1
    (by decide) (by decide) (by decide)

/-- Source `.get` on a Python dict comprehension built from a list: on duplicate
keys the last binding wins, so lookup returns the last matching element. -/
def findLast? {α : Type} (p : α → Bool) : List α → Option α
  | [] => none
  | x :: xs =>
    match findLast? p xs with
    | some y => some y
    | none => if p x then some x else none

/-- In-place mutation of the object a dict comprehension binds: the last
element satisfying `p` is replaced by its image under `f`; nothing happens
when no element satisfies `p`. -/
def mutateLast {α : Type} (p : α → Bool) (f : α → α) : List α → List α
  | [] => []
  | x :: xs =>
    if xs.any p then x :: mutateLast p f xs
    else if p x then f x :: xs
    else x :: xs

theorem findLast?_eq_none {α : Type} {p : α → Bool} {l : List α} :
    findLast? p l = none ↔ ∀ x ∈ l, p x = false := by
  induction l with
  | nil => simp [findLast?]
  | cons x xs ih =>
    constructor
    · intro h y hy
      unfold findLast? at h
      rcases hlw : findLast? p xs with _ | z
      · rw [hlw] at h
        rcases List.mem_cons.mp hy with h' | h'
        · subst h'
          by_cases hp : p y = true
          · rw [if_pos hp] at h
            exact Option.noConfusion h
          · exact Bool.not_eq_true _ |>.mp hp
        · exact (ih.mp hlw) y h'
      · rw [hlw] at h
        exact Option.noConfusion h
    · intro h
      unfold findLast?
      rw [ih.mpr (fun x hx => h x (List.mem_cons_of_mem _ hx))]
      rw [if_neg (by rw [h x (List.mem_cons_self _ _)]; exact Bool.false_ne_true)]

theorem findLast?_of_decomp {α : Type} {p : α → Bool} {l l₁ l₂ : List α}
    {r : α} (hl : l = l₁ ++ r :: l₂) (hp : p r = true)
    (h₂ : ∀ x ∈ l₂, p x = false) : findLast? p l = some r := by
  subst hl
  induction l₁ with
  | nil =>
    simp only [List.nil_append]
    unfold findLast?
    rw [findLast?_eq_none.mpr h₂, if_pos hp]
  | cons x xs ih =>
    show findLast? p (x :: (xs ++ r :: l₂)) = some r
    unfold findLast?
    rw [ih]

theorem mutateLast_eq {α : Type} {p : α → Bool} {f : α → α}
    {l l₁ l₂ : List α} {r : α} (hl : l = l₁ ++ r :: l₂) (hp : p r = true)
    (h₂ : ∀ x ∈ l₂, p x = false) :
    mutateLast p f l = l₁ ++ f r :: l₂ := by
  subst hl
  induction l₁ with
  | nil =>
    simp only [List.nil_append]
    have hany : l₂.any p = false := by
      refine List.any_eq_false.mpr ?_
      intro x hx
      rw [h₂ x hx]
      exact Bool.false_ne_true
    unfold mutateLast
    rw [hany, if_neg Bool.false_ne_true, if_pos hp]
  | cons x xs ih =>
    show mutateLast p f (x :: (xs ++ r :: l₂)) = x :: (xs ++ f r :: l₂)
    unfold mutateLast
    rw [if_pos (List.any_eq_true.mpr ⟨r, by simp, hp⟩), ih]

/-- The slice of a market-definition dict the code reads: the twelve
flattened scalar caches (the two ladder/key-line payloads are opaque to the
code and modelled as optional strings) and the runner-definition entries. -/
structure MarketDefinition where
  betDelay : Option ℤ
  version : Option ℤ
  complete : Option Bool
  runnersVoidable : Option Bool
  status : Option String
  bspReconciled : Option Bool
  crossMatching : Option Bool
  inPlay : Option Bool
  numberOfWinners : Option ℤ
  numberOfActiveRunners : Option ℤ
  priceLadderDefinition : Option String
  keyLineDefinition : Option String
  runners : List RunnerDefinition
deriving DecidableEq, Repr

/-- One entry of an `mcm` `rc` list, passed as keyword arguments to
`RunnerBook` on first sight; `none` = key absent from the dict. -/
structure RunnerChangeRecord where
  id : ℤ
  ltp : Option ℚ
  tv : Option ℚ
  trd : Option (List (List ℚ))
  atb : Option (List (List ℚ))
  batb : Option (List (List ℚ))
  bdatb : Option (List (List ℚ))
  atl : Option (List (List ℚ))
  batl : Option (List (List ℚ))
  bdatl : Option (List (List ℚ))
  spn : Option ℚ
  spf : Option ℚ
  spb : Option (List (List ℚ))
  spl : Option (List (List ℚ))
  hc : Option ℚ
deriving DecidableEq, Repr

/-- A decoded market-change delta (`market_change` in the source). -/
structure MarketChange where
  marketDefinition : Option MarketDefinition
  tv : Option ℚ
  rc : Option (List RunnerChangeRecord)
deriving DecidableEq, Repr

/-- The `if "x" in new_data:` cascade applied to an existing runner in
`MarketBookCache.update_cache`.  Each branch of the source writes a distinct
field of the runner and reads no other field, so the sequence of in-place
mutations is rendered as one simultaneous record update. -/
def RunnerBook.applyRunnerChange (r : RunnerBook)
    (nd : RunnerChangeRecord) : RunnerBook :=
  { r with
    last_price_traded :=
      match nd.ltp with | some v => some v | none => r.last_price_traded
    total_matched :=
      match nd.tv with | some v => some v | none => r.total_matched
    starting_price_near :=
      match nd.spn with | some v => some v | none => r.starting_price_near
    starting_price_far :=
      match nd.spf with | some v => some v | none => r.starting_price_far
    traded :=
      match nd.trd with
      | some l => (r.update_traded l).traded
      | none => r.traded
    available_to_back :=
      match nd.atb with
      | some l => r.available_to_back.update l
      | none => r.available_to_back
    available_to_lay :=
      match nd.atl with
      | some l => r.available_to_lay.update l
      | none => r.available_to_lay
    best_available_to_back :=
      match nd.batb with
      | some l => r.best_available_to_back.update l
      | none => r.best_available_to_back
    best_available_to_lay :=
      match nd.batl with
      | some l => r.best_available_to_lay.update l
      | none => r.best_available_to_lay
    best_display_available_to_back :=
      match nd.bdatb with
      | some l => r.best_display_available_to_back.update l
      | none => r.best_display_available_to_back
    best_display_available_to_lay :=
      match nd.bdatl with
      | some l => r.best_display_available_to_lay.update l
      | none => r.best_display_available_to_lay
    starting_price_back :=
      match nd.spb with
      | some l => r.starting_price_back.update l
      | none => r.starting_price_back
    starting_price_lay :=
      match nd.spl with
      | some l => r.starting_price_lay.update l
      | none => r.starting_price_lay }

/-- Source `RunnerBook(**new_data)` for a first-seen runner-change record: fields
present are passed, `hc` defaults to `0`, no definition. -/
def RunnerBook.create (nd : RunnerChangeRecord) : RunnerBook :=
  RunnerBook.init nd.id nd.ltp nd.tv nd.trd nd.atb nd.batb nd.bdatb nd.atl
    nd.batl nd.bdatl nd.spn nd.spf nd.spb nd.spl (nd.hc.getD 0) none

/-- The composite-key test `(selection_id, handicap) == (sid, hc)`. -/
def runnerKeyIs (sid : ℤ) (hc : ℚ) (r : RunnerBook) : Bool :=
  decide (r.selection_id = sid ∧ r.handicap = hc)

/-- Source `MarketBookCache`: one market's cached state.  `runner_dict` is not a
separate field: the source rebuilds it from `runners` on every insertion and
its values alias the list elements, so it is modelled as `findLast?` with
the composite-key test (last binding of a key wins in the comprehension). -/
structure MarketBookCache where
  market_id : String
  publish_time : ℤ
  total_matched : Option ℚ
  market_definition : Option MarketDefinition
  definition_bet_delay : Option ℤ
  definition_version : Option ℤ
  definition_complete : Option Bool
  definition_runners_voidable : Option Bool
  definition_status : Option String
  definition_bsp_reconciled : Option Bool
  definition_cross_matching : Option Bool
  definition_in_play : Option Bool
  definition_number_of_winners : Option ℤ
  definition_number_of_active_runners : Option ℤ
  definition_price_ladder_definition : Option String
  definition_key_line_description : Option String
  streaming_update : Option MarketChange
  runners : List RunnerBook
  number_of_runners : ℕ
deriving DecidableEq, Repr

/-- Source `MarketBookCache.__init__(market_id, publish_time)`. -/
def MarketBookCache.init (market_id : String) (publish_time : ℤ) :
    MarketBookCache :=
  { market_id := market_id
    publish_time := publish_time
    total_matched := none
    market_definition := none
    definition_bet_delay := none
    definition_version := none
    definition_complete := none
    definition_runners_voidable := none
    definition_status := none
    definition_bsp_reconciled := none
    definition_cross_matching := none
    definition_in_play := none
    definition_number_of_winners := none
    definition_number_of_active_runners := none
    definition_price_ladder_definition := none
    definition_key_line_description := none
    streaming_update := none
    runners := []
    number_of_runners := 0 }

/-- Source `runner_dict.get((id, hc))`. -/
def MarketBookCache.runnerLookup (m : MarketBookCache) (sid : ℤ) (hc : ℚ) :
    Option RunnerBook :=
  findLast? (runnerKeyIs sid hc) m.runners

/-- One iteration of the `for new_data in market_change["rc"]` loop: mutate
the runner found under `(id, hc-or-0)` (then re-serialise it in place), or
construct a new runner from the present fields, append it, refresh the
runner count, and serialise it. -/
def MarketBookCache.processRC (m : MarketBookCache)
    (nd : RunnerChangeRecord) : MarketBookCache :=
  match m.runnerLookup nd.id (nd.hc.getD 0) with
  | some _ =>
    { m with
      runners :=
        mutateLast (runnerKeyIs nd.id (nd.hc.getD 0))
          (fun r => (r.applyRunnerChange nd).serialise) m.runners }
  | none =>
    { m with
      runners := m.runners ++ [(RunnerBook.create nd).serialise]
      number_of_runners := m.runners.length + 1 }

/-- One iteration of the runner-definition loop in
`_process_market_definition`. -/
def MarketBookCache.processRunnerDefinition (m : MarketBookCache)
    (rd : RunnerDefinition) : MarketBookCache :=
  match m.runnerLookup rd.id (rd.hc.getD 0) with
  | some _ =>
    { m with
      runners :=
        mutateLast (runnerKeyIs rd.id (rd.hc.getD 0))
          (fun r => (r.update_definition rd).serialise) m.runners }
  | none =>
    { m with
      runners := m.runners ++
        [(RunnerBook.init rd.id none none none none none none none none none
          none none none none (rd.hc.getD 0) (some rd)).serialise]
      number_of_runners := m.runners.length + 1 }

/-- Source `MarketBookCache._process_market_definition`: store the definition,
refresh the twelve flattened caches, then process the runner definitions. -/
def MarketBookCache.process_market_definition (m : MarketBookCache)
    (md : MarketDefinition) : MarketBookCache :=
  let m :=
    { m with
      market_definition := some md
      definition_bet_delay := md.betDelay
      definition_version := md.version
      definition_complete := md.complete
      definition_runners_voidable := md.runnersVoidable
      definition_status := md.status
      definition_bsp_reconciled := md.bspReconciled
      definition_cross_matching := md.crossMatching
      definition_in_play := md.inPlay
      definition_number_of_winners := md.numberOfWinners
      definition_number_of_active_runners := md.numberOfActiveRunners
      definition_price_ladder_definition := md.priceLadderDefinition
      definition_key_line_description := md.keyLineDefinition }
  md.runners.foldl MarketBookCache.processRunnerDefinition m

/-- Source `MarketBookCache.update_cache(market_change, publish_time)`: publish
time and raw delta, then definition block, then market total matched, then
per-runner changes, in the source's fixed order. -/
def MarketBookCache.update_cache (m : MarketBookCache) (mc : MarketChange)
    (publish_time : ℤ) : MarketBookCache :=
  let m := { m with publish_time := publish_time, streaming_update := some mc }
  let m :=
    match mc.marketDefinition with
    | some md => m.process_market_definition md
    | none => m
  let m :=
    match mc.tv with
    | some v => { m with total_matched := some v }
    | none => m
  match mc.rc with
  | some rcs => rcs.foldl MarketBookCache.processRC m
  | none => m

/-- When the composite-key lookup finds a runner, the runner-change mutates
the found runner in place (then re-serialises it); nothing else changes. -/
theorem processRC_found (m : MarketBookCache) (nd : RunnerChangeRecord)
    (r : RunnerBook)
    (hlook : m.runnerLookup nd.id (nd.hc.getD 0) = some r) :
    m.processRC nd
      = { m with
          runners :=
            mutateLast (runnerKeyIs nd.id (nd.hc.getD 0))
              (fun x => (x.applyRunnerChange nd).serialise) m.runners } := by
  unfold MarketBookCache.processRC
  rw [hlook]

/-- A runner-change for an existing runner (`r` the last list element with
the matching composite key): only that runner changes, to its mutated and
re-serialised version; market scalars stay. -/
theorem processRC_existing (m : MarketBookCache) (nd : RunnerChangeRecord)
    (r : RunnerBook) (l₁ l₂ : List RunnerBook)
    (hdecomp : m.runners = l₁ ++ r :: l₂)
    (hkey : runnerKeyIs nd.id (nd.hc.getD 0) r = true)
    (hafter : ∀ x ∈ l₂, runnerKeyIs nd.id (nd.hc.getD 0) x = false) :
    (m.processRC nd).runners
        = l₁ ++ (r.applyRunnerChange nd).serialise :: l₂
      ∧ (m.processRC nd).total_matched = m.total_matched
      ∧ (m.processRC nd).market_definition = m.market_definition := by
  have hlook : m.runnerLookup nd.id (nd.hc.getD 0) = some r :=
    findLast?_of_decomp hdecomp hkey hafter
  rw [processRC_found m nd r hlook]
  exact ⟨mutateLast_eq hdecomp hkey hafter, rfl, rfl⟩

/-- C7: applying a runner-change carrying only the identity fields and `ltp`
to a market containing that runner updates exactly `lastPriceTraded` — in the
runner state and in its re-serialised snapshot — and leaves every other
runner, the market total matched and the market definition untouched; and in
general each field absent from a runner-change record leaves the matching
field of an existing runner unmodified. -/
theorem claim_C7 :
    (∀ (m : MarketBookCache) (pt sid : ℤ) (hcv ltp : ℚ) (r : RunnerBook)
        (l₁ l₂ : List RunnerBook),
      m.runners = l₁ ++ r :: l₂ →
      runnerKeyIs sid hcv r = true →
      (∀ x ∈ l₂, runnerKeyIs sid hcv x = false) →
      (m.update_cache
          ⟨none, none, some [⟨sid, some ltp, none, none, none, none, none,
            none, none, none, none, none, none, none, some hcv⟩]⟩ pt).runners
        = l₁ ++ { r with
            last_price_traded := some ltp
            serialised := some
              { r.serialiseFields with lastPriceTraded := some ltp } } :: l₂
      ∧ (m.update_cache
          ⟨none, none, some [⟨sid, some ltp, none, none, none, none, none,
            none, none, none, none, none, none, none, some hcv⟩]⟩
          pt).total_matched = m.total_matched
      ∧ (m.update_cache
          ⟨none, none, some [⟨sid, some ltp, none, none, none, none, none,
            none, none, none, none, none, none, none, some hcv⟩]⟩
          pt).market_definition = m.market_definition)
    ∧ (∀ (r : RunnerBook) (nd : RunnerChangeRecord),
      (nd.ltp = none →
        (r.applyRunnerChange nd).last_price_traded = r.last_price_traded)
      ∧ (nd.tv = none →
        (r.applyRunnerChange nd).total_matched = r.total_matched)
      ∧ (nd.spn = none →
        (r.applyRunnerChange nd).starting_price_near = r.starting_price_near)
      ∧ (nd.spf = none →
        (r.applyRunnerChange nd).starting_price_far = r.starting_price_far)
      ∧ (nd.trd = none → (r.applyRunnerChange nd).traded = r.traded)
      ∧ (nd.atb = none →
        (r.applyRunnerChange nd).available_to_back = r.available_to_back)
      ∧ (nd.atl = none →
        (r.applyRunnerChange nd).available_to_lay = r.available_to_lay)
      ∧ (nd.batb = none →
        (r.applyRunnerChange nd).best_available_to_back
          = r.best_available_to_back)
      ∧ (nd.batl = none →
        (r.applyRunnerChange nd).best_available_to_lay
          = r.best_available_to_lay)
      ∧ (nd.bdatb = none →
        (r.applyRunnerChange nd).best_display_available_to_back
          = r.best_display_available_to_back)
      ∧ (nd.bdatl = none →
        (r.applyRunnerChange nd).best_display_available_to_lay
          = r.best_display_available_to_lay)
      ∧ (nd.spb = none →
        (r.applyRunnerChange nd).starting_price_back = r.starting_price_back)
      ∧ (nd.spl = none →
        (r.applyRunnerChange nd).starting_price_lay
          = r.starting_price_lay)) := by
  constructor
  · intro m pt sid hcv ltp r l₁ l₂ hdecomp hkey hafter
    have h := processRC_existing
      { m with
        publish_time := pt
        streaming_update := some ⟨none, none, some [⟨sid, some ltp, none,
          none, none, none, none, none, none, none, none, none, none, none,
          some hcv⟩]⟩ }
      ⟨sid, some ltp, none, none, none, none, none, none, none, none, none,
        none, none, none, some hcv⟩
      r l₁ l₂ hdecomp hkey hafter
    exact ⟨h.1, h.2.1, h.2.2⟩
  · intro r nd
    refine ⟨?_, ?_, ?_, ?_, ?_, ?_, ?_, ?_, ?_, ?_, ?_, ?_, ?_⟩ <;>
      intro h <;> simp [RunnerBook.applyRunnerChange, h]

/-- A one-runner market used to witness C7. -/
def exampleRunner : RunnerBook :=
  RunnerBook.init 9 (some 4) (some 11) none none none none none none none
    none none none none 0 none

/-- The witnessing market, holding `exampleRunner` only. -/
def exampleMarket : MarketBookCache :=
  { MarketBookCache.init "1.23" 0 with runners := [exampleRunner] }

/-- Witness for C7: an `ltp`-only runner-change on the one-runner market. -/
theorem claim_C7_witness :
    (exampleMarket.update_cache
        ⟨none, none, some [⟨9, some 6, none, none, none, none, none, none,
          none, none, none, none, none, none, some 0⟩]⟩ 7).runners
      = [] ++ { exampleRunner with
          last_price_traded := some 6
          serialised := some
            { exampleRunner.serialiseFields with
              lastPriceTraded := some 6 } } :: []
    ∧ (exampleMarket.update_cache
        ⟨none, none, some [⟨9, some 6, none, none, none, none, none, none,
          none, none, none, none, none, none, some 0⟩]⟩ 7).total_matched
      = exampleMarket.total_matched
    ∧ (exampleMarket.update_cache
        ⟨none, none, some [⟨9, some 6, none, none, none, none, none, none,
          none, none, none, none, none, none, some 0⟩]⟩ 7).market_definition
      = exampleMarket.market_definition :=
  claim_C7.1 exampleMarket 7 9 0 6 exampleRunner [] []
    (by decide) (by decide) (by decide)

/-- Modelled from the spec: `BaseResource.strip_datetime` lives outside the
given source tree (`betfairlightweight/resources`); per the spec it converts
an optional epoch timestamp into a structured date/time value stored on the
order record.  Modelled as the identity on the optional epoch value. -/
def strip_datetime (v : Option ℤ) : Option ℤ := v

/-- Modelled from the spec: `create_date_string` lives outside the given
source tree (`betfairlightweight/utils`); per the spec it renders the
structured value once, at construction, to a canonical string.  Modelled as
decimal rendering of the epoch value. -/
def create_date_string (v : Option ℤ) : Option String := v.map toString

/-- One entry of an order-change `uo` list (field names as on the wire). -/
structure UnmatchedOrderPayload where
  id : String
  p : ℚ
  s : ℚ
  side : String
  status : String
  ot : String
  pd : ℤ
  sm : ℚ
  sr : ℚ
  sl : ℚ
  sc : ℚ
  sv : ℚ
  rfo : String
  rfs : String
  pt : Option String
  md : Option ℤ
  avp : Option ℚ
  bsp : Option ℚ
  ld : Option ℤ
  rac : Option String
  rc : Option String
  lsrc : Option String
  cd : Option ℤ
deriving DecidableEq, Repr

/-- Source `UnmatchedOrder`: one customer order's immutable snapshot; the four
timestamps are stored structured and pre-rendered at construction. -/
structure UnmatchedOrder where
  bet_id : String
  price : ℚ
  size : ℚ
  bsp_liability : Option ℚ
  side : String
  status : String
  persistence_type : Option String
  order_type : String
  placed_date : Option ℤ
  placed_date_string : Option String
  matched_date : Option ℤ
  matched_date_string : Option String
  average_price_matched : Option ℚ
  size_matched : ℚ
  size_remaining : ℚ
  size_lapsed : ℚ
  size_cancelled : ℚ
  size_voided : ℚ
  regulator_auth_code : Option String
  regulator_code : Option String
  reference_order : String
  reference_strategy : String
  lapsed_date : Option ℤ
  lapsed_date_string : Option String
  lapse_status_reason_code : Option String
  cancelled_date : Option ℤ
  cancelled_date_string : Option String
deriving DecidableEq, Repr

/-- Source `UnmatchedOrder.__init__(**payload)`. -/
def UnmatchedOrder.init (i : UnmatchedOrderPayload) : UnmatchedOrder :=
  { bet_id := i.id
    price := i.p
    size := i.s
    bsp_liability := i.bsp
    side := i.side
    status := i.status
    persistence_type := i.pt
    order_type := i.ot
    placed_date := strip_datetime (some i.pd)
    placed_date_string := create_date_string (strip_datetime (some i.pd))
    matched_date := strip_datetime i.md
    matched_date_string := create_date_string (strip_datetime i.md)
    average_price_matched := i.avp
    size_matched := i.sm
    size_remaining := i.sr
    size_lapsed := i.sl
    size_cancelled := i.sc
    size_voided := i.sv
    regulator_auth_code := i.rac
    regulator_code := i.rc
    reference_order := i.rfo
    reference_strategy := i.rfs
    lapsed_date := strip_datetime i.ld
    lapsed_date_string := create_date_string (strip_datetime i.ld)
    lapse_status_reason_code := i.lsrc
    cancelled_date := strip_datetime i.cd
    cancelled_date_string := create_date_string (strip_datetime i.cd) }

/-- Source `d[key] = v` on a Python dict kept as an insertion-ordered association
list: an existing key is overwritten in place, a new key is appended. -/
def assocSet {κ α : Type} [DecidableEq κ] (key : κ) (v : α) :
    List (κ × α) → List (κ × α)
  | [] => [(key, v)]
  | (k, x) :: rest =>
    if k = key then (k, v) :: rest else (k, x) :: assocSet key v rest

/-- Source `d.get(key)` on the same representation (keys are unique by
construction, so first match is the binding). -/
def assocGet {κ α : Type} [DecidableEq κ] (key : κ) :
    List (κ × α) → Option α
  | [] => none
  | (k, x) :: rest => if k = key then some x else assocGet key rest

theorem assocGet_assocSet_self {κ α : Type} [DecidableEq κ] (key : κ)
    (v : α) (d : List (κ × α)) : assocGet key (assocSet key v d) = some v := by
  induction d with
  | nil => simp [assocSet, assocGet]
  | cons kv rest ih =>
    rcases kv with ⟨k, x⟩
    unfold assocSet
    by_cases hk : k = key
    · rw [if_pos hk]
      unfold assocGet
      rw [if_pos hk]
    · rw [if_neg hk]
      unfold assocGet
      rw [if_neg hk]
      exact ih

/-- One entry of an `ocm` `orc` list. -/
structure OrderRunnerChange where
  id : ℤ
  fullImage : Option Bool
  ml : Option (List (List ℚ))
  mb : Option (List (List ℚ))
  uo : Option (List UnmatchedOrderPayload)
  hc : Option ℚ
  smc : Option String
deriving DecidableEq, Repr

/-- Source `OrderBookRunner`: one selection's order-side state.  `smc`
(strategy-matches) is an opaque payload the code stores verbatim. -/
structure OrderBookRunner where
  selection_id : ℤ
  full_image : Option Bool
  matched_lays : Available
  matched_backs : Available
  unmatched_orders : List (String × UnmatchedOrder)
  handicap : ℚ
  strategy_matches : Option String
deriving DecidableEq, Repr

/-- Source `OrderBookRunner.__init__(**order_changes)`: ladders from `ml`/`mb`
(arity 2, size at position 1), the unmatched mapping rebuilt from `uo`
(`{} ` when `uo` is falsy), `hc` defaulting to `0`. -/
def OrderBookRunner.init (oc : OrderRunnerChange) : OrderBookRunner :=
  { selection_id := oc.id
    full_image := oc.fullImage
    matched_lays := Available.init oc.ml 1 false
    matched_backs := Available.init oc.mb 1 false
    unmatched_orders :=
      (oc.uo.getD []).foldl
        (fun d i => assocSet i.id (UnmatchedOrder.init i) d) []
    handicap := oc.hc.getD 0
    strategy_matches := oc.smc }

/-- Source `OrderBookRunner.update_unmatched`: replace the named entries, leave all
others untouched. -/
def OrderBookRunner.update_unmatched (r : OrderBookRunner)
    (unmatched_orders : List UnmatchedOrderPayload) : OrderBookRunner :=
  { r with
    unmatched_orders :=
      unmatched_orders.foldl
        (fun d i => assocSet i.id (UnmatchedOrder.init i) d)
        r.unmatched_orders }

/-- The partial-update arm of `OrderBookCache.update_cache`: apply whichever
of `ml`, `mb`, `uo` are present, independently. -/
def OrderBookRunner.applyOrderRunnerChange (r : OrderBookRunner)
    (oc : OrderRunnerChange) : OrderBookRunner :=
  let r :=
    match oc.ml with
    | some l => { r with matched_lays := r.matched_lays.update l }
    | none => r
  let r :=
    match oc.mb with
    | some l => { r with matched_backs := r.matched_backs.update l }
    | none => r
  match oc.uo with
  | some l => r.update_unmatched l
  | none => r

/-- A decoded order-change delta (`order_book` in the source). -/
structure OrderChange where
  closed : Option Bool
  orc : Option (List OrderRunnerChange)
deriving DecidableEq, Repr

/-- Source `OrderBookCache`: one market's order-side state; `runners` is the keyed
collection `(selectionId, handicap) → OrderBookRunner` as an
insertion-ordered dict. -/
structure OrderBookCache where
  publish_time : Option ℤ
  market_id : Option String
  closed : Option Bool
  streaming_update : Option OrderChange
  runners : List ((ℤ × ℚ) × OrderBookRunner)
deriving DecidableEq, Repr

/-- Source `OrderBookCache.__init__(**kwargs)`. -/
def OrderBookCache.init (publish_time : Option ℤ) (id : Option String)
    (closed : Option Bool) : OrderBookCache :=
  { publish_time := publish_time
    market_id := id
    closed := closed
    streaming_update := none
    runners := [] }

/-- One iteration of the `for order_changes in order_book.get("orc", [])`
loop: a full image or an unseen key replaces the runner wholesale from the
payload; otherwise the present partial fields are applied to the existing
runner (mutated in place, i.e. overwritten under its unchanged key). -/
def OrderBookCache.processORC (c : OrderBookCache)
    (oc : OrderRunnerChange) : OrderBookCache :=
  match assocGet (oc.id, oc.hc.getD 0) c.runners with
  | none =>
    { c with runners :=
        assocSet (oc.id, oc.hc.getD 0) (OrderBookRunner.init oc) c.runners }
  | some r =>
    if oc.fullImage.getD false then
      { c with runners :=
          assocSet (oc.id, oc.hc.getD 0) (OrderBookRunner.init oc) c.runners }
    else
      { c with runners :=
          assocSet (oc.id, oc.hc.getD 0) (r.applyOrderRunnerChange oc) c.runners }

/-- Source `OrderBookCache.update_cache(order_book, publish_time)`. -/
def OrderBookCache.update_cache (c : OrderBookCache) (ob : OrderChange)
    (publish_time : ℤ) : OrderBookCache :=
  let c := { c with
    publish_time := some publish_time
    streaming_update := some ob }
  let c :=
    match ob.closed with
    | some v => { c with closed := some v }
    | none => c
  (ob.orc.getD []).foldl OrderBookCache.processORC c

/-- A full image, or an unseen key, rebuilds the runner from the payload
alone. -/
theorem processORC_replace (c : OrderBookCache) (oc : OrderRunnerChange)
    (h : oc.fullImage.getD false = true
      ∨ assocGet (oc.id, oc.hc.getD 0) c.runners = none) :
    c.processORC oc
      = { c with
          runners := assocSet (oc.id, oc.hc.getD 0)
            (OrderBookRunner.init oc) c.runners } := by
  unfold OrderBookCache.processORC
  rcases hlook : assocGet (oc.id, oc.hc.getD 0) c.runners with _ | r
  · rfl
  · rcases h with h | h
    · show (if oc.fullImage.getD false = true then _ else _) = _
      rw [if_pos h]
    · rw [hlook] at h
      exact Option.noConfusion h

/-- C8: an order-runner-change carrying a truthy `fullImage`, or whose
composite key is unseen, rebuilds that runner's state wholesale from the
incoming payload — the result is `OrderBookRunner(**payload)` regardless of
any prior matched/unmatched state — and parts omitted from the payload come
back empty. -/
theorem claim_C8 (c : OrderBookCache) (pt : ℤ) (oc : OrderRunnerChange)
    (h : oc.fullImage.getD false = true
      ∨ assocGet (oc.id, oc.hc.getD 0) c.runners = none) :
    assocGet (oc.id, oc.hc.getD 0)
        (c.update_cache ⟨none, some [oc]⟩ pt).runners
      = some (OrderBookRunner.init oc)
    ∧ (oc.ml = none → (OrderBookRunner.init oc).matched_lays.prices = [])
    ∧ (oc.mb = none → (OrderBookRunner.init oc).matched_backs.prices = [])
    ∧ (oc.uo = none → (OrderBookRunner.init oc).unmatched_orders = []) := by
  have h1 := processORC_replace
    { c with
      publish_time := some pt
      streaming_update := some ⟨none, some [oc]⟩ } oc h
  refine ⟨?_, ?_, ?_, ?_⟩
  · show assocGet (oc.id, oc.hc.getD 0)
      (OrderBookCache.processORC _ oc).runners = _
    rw [h1]
    exact assocGet_assocSet_self (oc.id, oc.hc.getD 0)
      (OrderBookRunner.init oc) _
  · intro hml
    show (Available.init oc.ml 1 false).prices = []
    rw [hml]
    rfl
  · intro hmb
    show (Available.init oc.mb 1 false).prices = []
    rw [hmb]
    rfl
  · intro huo
    show ((oc.uo.getD []).foldl
      (fun d i => assocSet i.id (UnmatchedOrder.init i) d) []) = []
    rw [huo]
    rfl

/-- Witness for C8: a full-image change that is a strict subset of the
runner's prior state (only `ml` present) wipes the matched-back ladder and
the unmatched mapping. -/
theorem claim_C8_witness :
    assocGet ((5 : ℤ), (0 : ℚ))
        ((((OrderBookCache.init none (some "1.2") none).update_cache
            ⟨none, some [⟨5, none, some [[7, 8]], some [[1, 2]], none, none,
              none⟩]⟩ 0).update_cache
          ⟨none, some [⟨5, some true, some [[2, 3]], none, none, none,
            none⟩]⟩ 1).runners)
      = some (OrderBookRunner.init
          ⟨5, some true, some [[2, 3]], none, none, none, none⟩)
    ∧ (OrderBookRunner.init
        ⟨5, some true, some [[2, 3]], none, none, none,
          none⟩).matched_backs.prices = []
    ∧ (OrderBookRunner.init
        ⟨5, some true, some [[2, 3]], none, none, none,
          none⟩).unmatched_orders = [] := by
  have h := claim_C8
    ((OrderBookCache.init none (some "1.2") none).update_cache
      ⟨none, some [⟨5, none, some [[7, 8]], some [[1, 2]], none, none,
        none⟩]⟩ 0) 1
    ⟨5, some true, some [[2, 3]], none, none, none, none⟩
    (Or.inl (by decide))
  exact ⟨h.1, h.2.2.1 rfl, h.2.2.2 rfl⟩

/-- Index of the last element satisfying `p` (the binding a dict
comprehension of `id → object` effectively keeps, as an index into the list
it was built from). -/
def findLastIdx? {α : Type} (p : α → Bool) : List α → Option ℕ
  | [] => none
  | x :: xs =>
    match findLastIdx? p xs with
    | some i => some (i + 1)
    | none => if p x then some 0 else none

theorem findLastIdx?_eq_none {α : Type} {p : α → Bool} {l : List α} :
    findLastIdx? p l = none ↔ ∀ x ∈ l, p x = false := by
  induction l with
  | nil => simp [findLastIdx?]
  | cons x xs ih =>
    constructor
    · intro h y hy
      unfold findLastIdx? at h
      rcases hlw : findLastIdx? p xs with _ | i
      · rw [hlw] at h
        rcases List.mem_cons.mp hy with h' | h'
        · subst h'
          by_cases hp : p y = true
          · rw [if_pos hp] at h
            exact Option.noConfusion h
          · exact Bool.not_eq_true _ |>.mp hp
        · exact (ih.mp hlw) y h'
      · rw [hlw] at h
        exact Option.noConfusion h
    · intro h
      unfold findLastIdx?
      rw [ih.mpr (fun x hx => h x (List.mem_cons_of_mem _ hx))]
      rw [if_neg (by
        rw [h x (List.mem_cons_self _ _)]
        exact Bool.false_ne_true)]

theorem findLastIdx?_of_decomp {α : Type} {p : α → Bool} {l l₁ l₂ : List α}
    {r : α} (hl : l = l₁ ++ r :: l₂) (hp : p r = true)
    (h₂ : ∀ x ∈ l₂, p x = false) : findLastIdx? p l = some l₁.length := by
  subst hl
  induction l₁ with
  | nil =>
    simp only [List.nil_append]
    unfold findLastIdx?
    rw [findLastIdx?_eq_none.mpr h₂, if_pos hp]
    rfl
  | cons x xs ih =>
    show findLastIdx? p (x :: (xs ++ r :: l₂)) = some (xs.length + 1)
    unfold findLastIdx?
    rw [ih]

theorem set_decomp {α : Type} (l₁ l₂ : List α) (r x : α) :
    (l₁ ++ r :: l₂).set l₁.length x = l₁ ++ x :: l₂ := by
  induction l₁ with
  | nil => rfl
  | cons y ys ih =>
    show y :: (ys ++ r :: l₂).set ys.length x = y :: (ys ++ x :: l₂)
    rw [ih]

/-- A raw race-runner payload: the code reads only its `"id"`; every other
field is opaque to it and is abstracted as one value (`data`). -/
structure RaceRunnerPayload where
  id : String
  data : ℤ
deriving DecidableEq, Repr

/-- Source `RunnerChange`: the wrapper object holding one runner's latest raw
payload verbatim. -/
structure RunnerChange where
  change : RaceRunnerPayload
deriving DecidableEq, Repr

/-- A decoded race delta (`update` in the source); `rpc` is an opaque
race-progress payload stored verbatim. -/
structure RaceChange where
  rpc : Option ℤ
  rrc : Option (List RaceRunnerPayload)
deriving DecidableEq, Repr

/-- Source `RaceCache`: one race's cached state. -/
structure RaceCache where
  publish_time : Option ℤ
  market_id : Option String
  race_id : Option String
  rpc : Option ℤ
  rrc : List RunnerChange
  streaming_update : Option RaceChange
deriving DecidableEq, Repr

/-- Source `RaceCache.__init__(**kwargs)`. -/
def RaceCache.init (publish_time : Option ℤ) (mid id : Option String)
    (rpc : Option ℤ) (rrc : Option (List RaceRunnerPayload)) : RaceCache :=
  { publish_time := publish_time
    market_id := mid
    race_id := id
    rpc := rpc
    rrc := (rrc.getD []).map (fun u => ⟨u⟩)
    streaming_update := none }

/-- The `rrc` loop of `RaceCache.update_cache`: `runner_dict` is built once,
before the loop, from the entries already present (its values alias the list
entries, the last entry with a duplicated id winning), so it is modelled as
an index into the pre-loop list.  Each incoming payload overwrites the
aliased entry's whole payload, or is appended when its id is not in that
prebuilt lookup. -/
def raceApplyRRC (rrc0 : List RunnerChange)
    (ups : List RaceRunnerPayload) : List RunnerChange :=
  ups.foldl
    (fun acc u =>
      match findLastIdx? (fun rc => decide (rc.change.id = u.id)) rrc0 with
      | some i => acc.set i ⟨u⟩
      | none => acc ++ [⟨u⟩])
    rrc0

/-- Source `RaceCache.update_cache(update, publish_time)`. -/
def RaceCache.update_cache (c : RaceCache) (update : RaceChange)
    (publish_time : ℤ) : RaceCache :=
  let c := { c with
    publish_time := some publish_time
    streaming_update := some update }
  let c :=
    match update.rpc with
    | some v => { c with rpc := some v }
    | none => c
  match update.rrc with
  | some ups => { c with rrc := raceApplyRRC c.rrc ups }
  | none => c

theorem raceApplyRRC_single (rrc0 : List RunnerChange)
    (u : RaceRunnerPayload) :
    raceApplyRRC rrc0 [u]
      = (match findLastIdx? (fun rc => decide (rc.change.id = u.id)) rrc0 with
        | some i => rrc0.set i ⟨u⟩
        | none => rrc0 ++ [⟨u⟩]) := rfl

/-- C9: a race-runner-change whose id matches an existing entry replaces
that entry's whole payload (no merge); an unseen id appends a new entry at
the end; and the concrete two-step scenario on an empty runner list ends
with exactly one entry holding the second payload. -/
theorem claim_C9 :
    (∀ (c : RaceCache) (u : RaceRunnerPayload) (pt : ℤ)
        (l₁ l₂ : List RunnerChange) (r : RunnerChange),
      c.rrc = l₁ ++ r :: l₂ → r.change.id = u.id →
      (∀ x ∈ l₂, x.change.id ≠ u.id) →
      (c.update_cache ⟨none, some [u]⟩ pt).rrc = l₁ ++ ⟨u⟩ :: l₂)
    ∧ (∀ (c : RaceCache) (u : RaceRunnerPayload) (pt : ℤ),
      (∀ x ∈ c.rrc, x.change.id ≠ u.id) →
      (c.update_cache ⟨none, some [u]⟩ pt).rrc = c.rrc ++ [⟨u⟩])
    ∧ ((((RaceCache.init none (some "1.1") (some "race") none
          none).update_cache ⟨none, some [⟨"r1", 1⟩]⟩ 1).update_cache
            ⟨none, some [⟨"r1", 2⟩]⟩ 2).rrc = [⟨⟨"r1", 2⟩⟩]) := by
  refine ⟨?_, ?_, by decide⟩
  · intro c u pt l₁ l₂ r hdecomp hid hafter
    have hidx : findLastIdx? (fun rc => decide (rc.change.id = u.id)) c.rrc
        = some l₁.length :=
      findLastIdx?_of_decomp hdecomp (decide_eq_true hid)
        (fun x hx => decide_eq_false (hafter x hx))
    show raceApplyRRC c.rrc [u] = _
    rw [raceApplyRRC_single, hidx]
    rw [hdecomp]
    exact set_decomp l₁ l₂ r ⟨u⟩
  · intro c u pt hno
    have hidx : findLastIdx? (fun rc => decide (rc.change.id = u.id)) c.rrc
        = none :=
      findLastIdx?_eq_none.mpr (fun x hx => decide_eq_false (hno x hx))
    show raceApplyRRC c.rrc [u] = _
    rw [raceApplyRRC_single, hidx]

/-- Witness for C9 at a two-entry race: the matching entry's payload is
swapped wholesale, the other entry survives. -/
theorem claim_C9_witness :
    ((RaceCache.init none (some "1.1") (some "race") none
        (some [⟨"a", 1⟩, ⟨"b", 2⟩])).update_cache
      ⟨none, some [⟨"a", 9⟩]⟩ 3).rrc
      = [] ++ (⟨⟨"a", 9⟩⟩ : RunnerChange) :: [⟨⟨"b", 2⟩⟩] := by
  have h := claim_C9.1
    (RaceCache.init none (some "1.1") (some "race") none
      (some [⟨"a", 1⟩, ⟨"b", 2⟩])) ⟨"a", 9⟩ 3 [] [⟨⟨"b", 2⟩⟩] ⟨⟨"a", 1⟩⟩
    (by decide) (by decide) (by decide)
  exact h
